import Mathlib

/-!
Verification development for the incremental synchronization engine of a
browser extension that mirrors a remote, paginated collection of
conversations into a local folder.

The embedding models the two cooperating processes of the source:

* the background service worker (`background.js`): message handlers that
  fold port messages into the persisted `syncState`
  (`conversations`/`meta`/`lastRun`/`lastFullInventoryAt`/`inventoryCursor`);
* the content-script engine (`content.js`): mode selection
  (`shouldForceFullInventory`, `getResumeOffset`), the sequential listing
  loop with per-item classification, the fetch queue, the removal pass and
  the `index.json` snapshot (`readIndex` / `writeIndex` / `mergeKnownState`).

Timestamps are modelled as `Nat` (epoch seconds for record times, epoch
milliseconds for wall-clock values); the source's `toEpochSeconds` maps any
missing or unparseable value to `0`, so a `Nat` with `0` as the "missing"
value is the image of that normalization.  JavaScript objects keyed by
conversation id are modelled as association lists with first-match lookup;
the updating operations below keep keys unique.  Concurrency is
sequentialized: listed items are classified page by page and the enqueued
fetches are then processed in order (per-item effects in the source touch
disjoint per-id entries, and the cursor-advance machine is modelled
separately over an arbitrary completion order).
-/

/-- Association map keyed by conversation id, modelling a JS object. -/
abbrev AssocMap (α : Type) := List (String × α)

/-- First-match lookup, modelling property access on a JS object. -/
def amGet? {α : Type} : AssocMap α → String → Option α
  | [], _ => none
  | (k, v) :: rest, id => if k = id then some v else amGet? rest id

/-- Lookup with a default, modelling `obj[id] || d` / `Number.isFinite` guards. -/
def amGetD {α : Type} (m : AssocMap α) (id : String) (d : α) : α :=
  (amGet? m id).getD d

/-- Property deletion `delete obj[id]` (removal of every binding for the key). -/
def amDel {α : Type} : AssocMap α → String → AssocMap α
  | [], _ => []
  | p :: rest, id => if p.1 = id then amDel rest id else p :: amDel rest id

/-- Property assignment `obj[id] = v`; keeps keys unique. -/
def amSet {α : Type} (m : AssocMap α) (id : String) (v : α) : AssocMap α :=
  (id, v) :: amDel m id

/-- `Object.keys`. -/
def amKeys {α : Type} (m : AssocMap α) : List String :=
  m.map (·.1)

/-! ### Normalized remote data (source: `content.js`) -/

/-- A listing-page item, after `toEpochSeconds` normalization (`0` = missing). -/
structure Item where
  id : String
  title : String
  update_time : Nat
  create_time : Nat
  deriving DecidableEq, Inhabited

/-- A fetched conversation body (only the fields the engine reads). -/
structure Conv where
  title : String
  update_time : Nat
  create_time : Nat
  deriving DecidableEq, Inhabited

/-- Lightweight per-id metadata (`syncState.meta` entries / `index.json` rows). -/
structure Meta where
  title : String
  create_time : Nat
  update_time : Nat
  deriving DecidableEq, Inhabited

/-- The resumable inventory cursor `{offset, updatedAt}` (`limit` elided;
`updatedAt := none` models an absent timestamp). -/
structure Cursor where
  offset : Nat
  updatedAt : Option Nat
  deriving DecidableEq, Inhabited

/-- The options the engine reads (after `normalizeOptions`). -/
structure Options where
  deleteRemoved : Bool
  includeJson : Bool
  includeMarkdown : Bool
  maxParallelFetch : Nat
  deriving DecidableEq, Inhabited

/-- One raw listing page as the transport returns it, after
`normalizeConversationList`: `items`, optional `total`, optional `has_more`
flag, and the page size the transport accepted (`page.limit`). -/
structure Page where
  items : List Item
  total : Option Nat
  has_more : Option Bool
  limit : Nat
  deriving DecidableEq, Inhabited

/-- Source: `toEpochSeconds(item.update_time) || toEpochSeconds(item.create_time)`. -/
def itemTime (it : Item) : Nat :=
  if it.update_time ≠ 0 then it.update_time else it.create_time

/-- One step of the `pageMinUpdate` fold in `fetchConversationPage`
(`if (!pageMinUpdate || itemUpdate < pageMinUpdate) pageMinUpdate = itemUpdate`). -/
def pageMinStep (acc : Nat) (it : Item) : Nat :=
  if acc = 0 ∨ itemTime it < acc then itemTime it else acc

/-- Source: the `pageMinUpdate` fold in `fetchConversationPage`. -/
def pageMinUpdate (items : List Item) : Nat :=
  items.foldl pageMinStep 0

/-- Source: the `total` fallback in `fetchConversationPage`
(`Number.isFinite(data.total) ? data.total : items.length`). -/
def pageTotal (p : Page) : Nat :=
  p.total.getD p.items.length

/-- Source: the `hasMore` computation in `fetchConversationPage`.  The
`items.length >= candidate` arm of the source is unreachable because `total`
always defaults to `items.length`, which makes the middle guard true. -/
def pageHasMore (p : Page) (offset : Nat) : Bool :=
  match p.has_more with
  | some b => b
  | none => decide (offset + p.items.length < pageTotal p)

/-! ### Mode selection (source: `content.js` helpers) -/

/-- `MAX_PARTIAL_AGE_MS = 24 * 60 * 60 * 1000`. -/
def maxPartialAgeMs : Nat := 24 * 60 * 60 * 1000

/-- `maxPages = 200` (hard page-count ceiling in `runSync`). -/
def maxPages : Nat := 200

/-- Source: `getMaxKnownUpdateTime` — maximum stored watermark, `0` when none. -/
def getMaxKnownUpdateTime (knownConversations : AssocMap Nat) : Nat :=
  knownConversations.foldl (fun maxTime p => if p.2 > maxTime then p.2 else maxTime) 0

/-- Source: `shouldForceFullInventory`.  `lastFullInventoryAt := none` models
the absent-or-unparseable timestamp (`!lastFullInventoryAt` or
`!Number.isFinite(Date.parse(...))`); `now` is `Date.now()` in ms. -/
def shouldForceFullInventory (options : Options) (knownConversations : AssocMap Nat)
    (lastFullInventoryAt : Option Nat) (now : Nat) : Bool :=
  if knownConversations.isEmpty then true
  else if options.deleteRemoved then true
  else
    match lastFullInventoryAt with
    | none => true
    | some lastFull => decide (now - lastFull > maxPartialAgeMs)

/-- Source: `getResumeOffset`.  A cursor with an absent `updatedAt` skips the
staleness check and resumes at its offset (the `if (inventoryCursor.updatedAt)`
guard); states persisted by the background always carry an `updatedAt`. -/
def getResumeOffset (inventoryCursor : Option Cursor) (now : Nat) : Nat :=
  match inventoryCursor with
  | none => 0
  | some c =>
      match c.updatedAt with
      | some updatedAt => if now - updatedAt > maxPartialAgeMs then 0 else c.offset
      | none => c.offset

/-! ### Index snapshot (source: `readIndex` / `writeIndex` / `mergeKnownState`) -/

/-- One row of a persisted `index.json` snapshot, after numeric parsing. -/
structure IndexEntry where
  id : String
  title : String
  create_time : Nat
  update_time : Nat
  deriving DecidableEq, Inhabited

/-- The id-keyed maps `readIndex` rebuilds from a snapshot. -/
structure IndexState where
  conversations : AssocMap Nat
  meta : AssocMap Meta
  deriving DecidableEq, Inhabited

/-- Source: the entry loop of `readIndex` — rows without an id are skipped,
later rows overwrite earlier ones. -/
def readIndexModel (entries : List IndexEntry) : IndexState :=
  entries.foldl (fun st e =>
    if e.id = "" then st
    else
      { conversations := amSet st.conversations e.id e.update_time,
        meta := amSet st.meta e.id ⟨e.title, e.create_time, e.update_time⟩ }) ⟨[], []⟩

/-- Source: the conversations loop of `mergeKnownState`
(`mergedConversations[id] = Math.max(existing || 0, updateTime || 0)`). -/
def mergeConversations (kc : AssocMap Nat) (idx : AssocMap Nat) : AssocMap Nat :=
  idx.foldl (fun m p => amSet m p.1 (max (amGetD m p.1 0) p.2)) kc

/-- One step of the meta loop of `mergeKnownState` — an absent entry is
added, a present one is replaced by `{...current, ...meta, update_time: max}`
only when the snapshot time is at least the current one. -/
def mergeMetaStep (m : AssocMap Meta) (p : String × Meta) : AssocMap Meta :=
  if p.1 = "" then m
  else
    match amGet? m p.1 with
    | none => amSet m p.1 p.2
    | some cur =>
        if cur.update_time ≤ p.2.update_time then
          amSet m p.1 { p.2 with update_time := max cur.update_time p.2.update_time }
        else m

/-- Source: the meta loop of `mergeKnownState`. -/
def mergeMeta (km : AssocMap Meta) (idx : AssocMap Meta) : AssocMap Meta :=
  idx.foldl mergeMetaStep km

/-- Source: `mergeKnownState` — the merge of stored known state with an
`index.json` snapshot at the start of a run. -/
def mergeKnownState (knownConversations : AssocMap Nat) (knownMeta : AssocMap Meta)
    (indexState : Option IndexState) : AssocMap Nat × AssocMap Meta :=
  match indexState with
  | none => (knownConversations, knownMeta)
  | some idx => (mergeConversations knownConversations idx.conversations,
                 mergeMeta knownMeta idx.meta)

/-- Source: `writeIndex` — the snapshot rows written from `metaMap` (the
source additionally sorts rows by descending `update_time` for display;
sorting does not change the id-keyed maps `readIndex` rebuilds, and is
elided here). -/
def indexEntriesOfMeta (m : AssocMap Meta) : List IndexEntry :=
  m.map (fun p => ⟨p.1, p.2.title, p.2.create_time, p.2.update_time⟩)

/-! ### Background message handlers (source: `background.js` `port.onMessage`) -/

/-- `lastRun` statuses. -/
inductive RunStatus
  | updated
  | unchanged
  | error
  deriving DecidableEq, Inhabited

/-- One `lastRun` record `{status, update_time, at, error?}` (`at` is a
reserved word in Lean, hence `atTime`). -/
structure RunRecord where
  status : RunStatus
  update_time : Nat
  atTime : Nat
  errorMsg : Option String
  deriving DecidableEq, Inhabited

/-- Cursor payload of a `sync-progress` / `sync-mode` message. -/
structure SyncCursor where
  offset : Nat
  limit : Option Nat
  deriving DecidableEq, Inhabited

/-- The port messages the content script sends to the background worker
(fatal messages `sync-requires-folder` / `sync-permission-required` /
`sync-error` reject the run before any state write and are not modelled). -/
inductive Msg where
  | conversation (id title : String) (create_time update_time : Nat)
  | conversationSkip (id title : String) (create_time update_time : Nat)
  | conversationError (id : Option String) (errorMsg : String)
  | syncMode (fullInventory : Bool) (resumeOffset : Nat) (limit : Option Nat)
  | syncProgress (cursor : Option SyncCursor)
  | syncComplete (fullInventory : Bool)
  deriving DecidableEq, Inhabited

/-- The persisted `syncState` aggregate (the stored `inventoryCursor.limit`
field is elided: `getResumeOffset`, the only reader, ignores it). -/
structure BgState where
  conversations : AssocMap Nat
  meta : AssocMap Meta
  lastRun : AssocMap RunRecord
  lastFullInventoryAt : Option Nat
  inventoryCursor : Option Cursor
  inventoryInProgress : Bool
  deriving DecidableEq, Inhabited

/-- The background listener's run-local state: `nextState`, the `currentIds`
set and the `fullInventoryMode` flag. -/
structure BgAcc where
  state : BgState
  currentIds : List String
  fullInventoryMode : Bool
  deriving DecidableEq, Inhabited

/-- `Set.add` on the observed-id set (order of insertion, unique members). -/
def addCurrentId (ids : List String) (id : String) : List String :=
  if id ∈ ids then ids else ids ++ [id]

/-- The pruning loop of the `sync-complete` handler: keep exactly the
bindings whose key is in the observed-id set. -/
def amRestrict {α : Type} : AssocMap α → List String → AssocMap α
  | [], _ => []
  | p :: rest, ids => if p.1 ∈ ids then p :: amRestrict rest ids else amRestrict rest ids

/-- Source: the message dispatch of `port.onMessage` in `background.js`,
acting on `nextState` / `currentIds` / counters (`now` is the wall clock
used by `nowIso()`; per-run counters other than the state are tracked on
the content side where the claims read them). -/
def bgStep (now : Nat) (a : BgAcc) (m : Msg) : BgAcc :=
  match m with
  | .conversation id title ct ut =>
      let existingTime := amGetD a.state.conversations id 0
      let nextTime := max existingTime ut
      { a with
        currentIds := addCurrentId a.currentIds id,
        state := { a.state with
          conversations := amSet a.state.conversations id nextTime,
          meta := amSet a.state.meta id ⟨title, ct, nextTime⟩,
          lastRun := amSet a.state.lastRun id ⟨.updated, nextTime, now, none⟩ } }
  | .conversationSkip id title ct ut =>
      let existingTime := amGetD a.state.conversations id 0
      let nextTime := max existingTime ut
      { a with
        currentIds := addCurrentId a.currentIds id,
        state := { a.state with
          conversations := amSet a.state.conversations id nextTime,
          meta := amSet a.state.meta id ⟨title, ct, nextTime⟩,
          lastRun := amSet a.state.lastRun id ⟨.unchanged, nextTime, now, none⟩ } }
  | .conversationError oid err =>
      match oid with
      | some id =>
          { a with
            currentIds := addCurrentId a.currentIds id,
            state := { a.state with
              lastRun := amSet a.state.lastRun id
                ⟨.error, amGetD a.state.conversations id 0, now, some err⟩ } }
      | none => a
  | .syncMode full resumeOffset _lim =>
      if full then
        { a with
          fullInventoryMode := true,
          state := { a.state with
            inventoryCursor := some ⟨resumeOffset, some now⟩,
            inventoryInProgress := true } }
      else
        { a with
          fullInventoryMode := false,
          state := { a.state with inventoryCursor := none, inventoryInProgress := false } }
  | .syncProgress cursor =>
      if a.fullInventoryMode then
        match cursor with
        | some c =>
            { a with state := { a.state with
                inventoryCursor := some ⟨c.offset, some now⟩,
                inventoryInProgress := true } }
        | none => a
      else a
  | .syncComplete full =>
      if full then
        { a with state := { a.state with
            conversations := amRestrict a.state.conversations a.currentIds,
            meta := amRestrict a.state.meta a.currentIds,
            lastRun := amRestrict a.state.lastRun a.currentIds,
            lastFullInventoryAt := some now,
            inventoryCursor := none,
            inventoryInProgress := false } }
      else if a.fullInventoryMode then
        { a with state := { a.state with inventoryInProgress := true } }
      else
        { a with state := { a.state with inventoryCursor := none, inventoryInProgress := false } }

/-- Folding a message stream into the background state. -/
def bgRun (now : Nat) (a : BgAcc) (msgs : List Msg) : BgAcc :=
  msgs.foldl (bgStep now) a

/-- Is this the `sync-complete` message of a completed full inventory
(the only message that prunes state)? -/
def isFullComplete : Msg → Bool
  | .syncComplete true => true
  | _ => false

/-! ### The content-side sync engine (source: `content.js` `runSync`) -/

/-- How the listing loop ended. -/
inductive ExitReason
  | emptyFirst
  | emptyLater
  | pageCeiling
  | stopTime
  | noMore
  | remoteEnd
  deriving DecidableEq, Inhabited

/-- Source: `stopForTime = stopAfterTime && page.pageMinUpdate && page.pageMinUpdate <= stopAfterTime`
(JavaScript truthiness: a zero watermark or a zero page minimum never stops). -/
def stopTimeTriggered (stopAfterTime : Option Nat) (pmin : Nat) : Bool :=
  match stopAfterTime with
  | none => false
  | some w => decide (w ≠ 0) && decide (pmin ≠ 0) && decide (pmin ≤ w)

/-- Payload of a per-item `conversation` / `conversation-skip` message. -/
structure ItemMsg where
  id : String
  title : String
  create_time : Nat
  update_time : Nat
  deriving DecidableEq, Inhabited

/-- Accumulated state of the listing/classification loop. -/
structure ListAcc where
  metaMap : AssocMap Meta
  currentIds : List String
  processedPages : List Page
  listedItems : List Item
  skips : List ItemMsg
  enqueued : List Item
  processed : Nat
  skippedCount : Nat
  listedCount : Nat
  pageCount : Nat
  didFullInventory : Bool
  offset : Nat
  limit : Nat
  exit : ExitReason
  deriving DecidableEq, Inhabited

/-- Source: the per-item classification in the listing loop of `runSync`
(metadata pre-write, then skip-vs-enqueue on `updateTime <= knownTime`). -/
def classifyItem (known : AssocMap Nat) (a : ListAcc) (it : Item) : ListAcc :=
  let id := it.id
  let updateTime := itemTime it
  let knownTime := amGetD known id 0
  let createTimeSeconds :=
    if it.create_time ≠ 0 then it.create_time
    else
      match amGet? a.metaMap id with
      | some m => m.create_time
      | none => 0
  let existingMetaUpdate :=
    match amGet? a.metaMap id with
    | some m => m.update_time
    | none => 0
  let mergedUpdateTime := max updateTime (max knownTime existingMetaUpdate)
  let metaTitle :=
    if it.title ≠ "" then it.title
    else
      match amGet? a.metaMap id with
      | some m => m.title
      | none => ""
  let a1 := { a with
    currentIds := addCurrentId a.currentIds id,
    listedItems := a.listedItems ++ [it],
    metaMap := amSet a.metaMap id ⟨metaTitle, createTimeSeconds, mergedUpdateTime⟩ }
  if updateTime ≤ knownTime then
    { a1 with
      processed := a1.processed + 1,
      skippedCount := a1.skippedCount + 1,
      skips := a1.skips ++ [⟨id, it.title, createTimeSeconds, mergedUpdateTime⟩] }
  else
    { a1 with enqueued := a1.enqueued ++ [it] }

/-- One iteration of the page loop of `runSync`: empty-page and
page-ceiling exits, the partial-pass stopping rule, the continuation
condition `page.hasMore || items.length >= limit`, and per-item
classification.  Returns whether the listing continues, and the updated
accumulator. -/
def listPageStep (known : AssocMap Nat) (stopAfterTime : Option Nat)
    (p : Page) (a : ListAcc) : Bool × ListAcc :=
  let a0 := { a with limit := p.limit }
  if p.items.isEmpty then
    if a0.listedCount = 0 then
      (false, { a0 with didFullInventory := false, exit := .emptyFirst })
    else (false, { a0 with exit := .emptyLater })
  else
    let a1 := { a0 with listedCount := a0.listedCount + p.items.length }
    if a1.pageCount + 1 > maxPages then
      let aCeil := { a1 with
        pageCount := a1.pageCount + 1,
        didFullInventory := false,
        exit := ExitReason.pageCeiling }
      (false, aCeil)
    else
      let pmin := pageMinUpdate p.items
      let stopFor := stopTimeTriggered stopAfterTime pmin
      let shouldContinue :=
        !stopFor && (pageHasMore p a1.offset || decide (p.items.length ≥ p.limit))
      let a2 := { a1 with
        pageCount := a1.pageCount + 1,
        didFullInventory := a1.didFullInventory && !stopFor,
        processedPages := a1.processedPages ++ [p] }
      let a3 := p.items.foldl (classifyItem known) a2
      let a4 := { a3 with offset := a3.offset + p.items.length }
      if shouldContinue then (true, a4)
      else (false, { a4 with exit := if stopFor then .stopTime else .noMore })

/-- Source: the page loop of `runSync` (`while (pagePromise)`).  The remote
is the sequence of pages successive `fetchConversationPage` calls deliver;
exhausting it ends the loop (`ExitReason.remoteEnd`). -/
def listLoop (known : AssocMap Nat) (stopAfterTime : Option Nat) :
    List Page → ListAcc → ListAcc
  | [], a => { a with exit := .remoteEnd }
  | p :: rest, a =>
    let step := listPageStep known stopAfterTime p a
    if step.1 then listLoop known stopAfterTime rest step.2 else step.2

/-- Accumulated state of the fetch-queue drain. -/
structure ProcAcc where
  metaMap : AssocMap Meta
  updatedCount : Nat
  errorCount : Nat
  processed : Nat
  convs : List ItemMsg
  errs : List (String × String)
  writes : List String
  deriving DecidableEq, Inhabited

/-- Source: `processItem` — fetch one body; on success write the artifact,
update `metaMap` with `max(listed update, body update)` and report
`conversation`; on failure report `conversation-error`.  The watermark for
a failed fetch is not advanced here. -/
def processItem (fetchConversation : String → Except String Conv)
    (a : ProcAcc) (it : Item) : ProcAcc :=
  let updateTime := itemTime it
  match fetchConversation it.id with
  | .ok conversation =>
      let metaUpdateTime := max updateTime conversation.update_time
      let createTimeSeconds :=
        if conversation.create_time ≠ 0 then conversation.create_time else it.create_time
      let title := if conversation.title ≠ "" then conversation.title else it.title
      { a with
        metaMap := amSet a.metaMap it.id ⟨title, createTimeSeconds, metaUpdateTime⟩,
        updatedCount := a.updatedCount + 1,
        processed := a.processed + 1,
        convs := a.convs ++ [⟨it.id, title, createTimeSeconds, metaUpdateTime⟩],
        writes := a.writes ++ [it.id] }
  | .error e =>
      { a with
        errorCount := a.errorCount + 1,
        processed := a.processed + 1,
        errs := a.errs ++ [(it.id, e)] }

/-- Result of the removal pass. -/
structure RemovalOut where
  metaMap : AssocMap Meta
  deletionAttempts : List String
  errorCount : Nat
  removedIds : List String
  deriving DecidableEq, Inhabited

/-- Source: the `if (didFullInventory)` block of `runSync` — every id in
`metaMap` not observed this pass is deleted from `metaMap`; artifact
deletion is attempted only under `options.deleteRemoved`, and a failed
deletion increments the error counter and continues (`deleteOk` is the
deletion oracle: `false` = the `deleteConversation` call throws). -/
def removalStep (options : Options) (deleteOk : String → Bool)
    (r : RemovalOut) (id : String) : RemovalOut :=
  { metaMap := amDel r.metaMap id,
    deletionAttempts := r.deletionAttempts ++ (if options.deleteRemoved then [id] else []),
    errorCount := r.errorCount + (if options.deleteRemoved && !(deleteOk id) then 1 else 0),
    removedIds := r.removedIds ++ [id] }

def removalPass (options : Options) (deleteOk : String → Bool)
    (metaMap : AssocMap Meta) (currentIds : List String) (errorCount : Nat) : RemovalOut :=
  let removed := (amKeys metaMap).filter (fun id => decide (id ∉ currentIds))
  removed.foldl (removalStep options deleteOk) ⟨metaMap, [], errorCount, []⟩

/-- The outcome of one content-side sync run. -/
structure RunResult where
  listing : ListAcc
  proc : ProcAcc
  metaMap : AssocMap Meta
  deletionAttempts : List String
  removedIds : List String
  errorCount : Nat
  updatedCount : Nat
  skippedCount : Nat
  didFullInventory : Bool
  exit : ExitReason
  msgs : List Msg
  indexWritten : List IndexEntry
  deriving DecidableEq, Inhabited

/-- Initial loop state (`metaMap = { ...knownMeta }`, counters zero,
`didFullInventory = forceFullInventory`, `offset = resumeOffset`,
`limit = 100`). -/
def initListAcc (knownMeta : AssocMap Meta) (fullInventory : Bool) (resumeOffset : Nat) : ListAcc :=
  { metaMap := knownMeta, currentIds := [], processedPages := [], listedItems := [],
    skips := [], enqueued := [], processed := 0, skippedCount := 0, listedCount := 0,
    pageCount := 0, didFullInventory := fullInventory, offset := resumeOffset,
    limit := 100, exit := .noMore }

/-- Source: `const stopAfterTime = forceFullInventory ? null : getMaxKnownUpdateTime(knownConversations)`. -/
def stopTimeFor (fullInventory : Bool) (known : AssocMap Nat) : Option Nat :=
  if fullInventory then none else some (getMaxKnownUpdateTime known)

/-- Source: the body of `runSync` after mode selection, sequentialized:
list-and-classify, drain the fetch queue, run the removal pass when the
full inventory completed, write `index.json`, report `sync-complete`.
The message stream mirrors the port traffic the run generates (progress
messages, which carry no per-id state, are modelled by the separate
cursor-advance machine below). -/
def contentRun (options : Options) (fullInventory : Bool)
    (known : AssocMap Nat) (knownMeta : AssocMap Meta) (resumeOffset : Nat)
    (remote : List Page) (fetchConversation : String → Except String Conv)
    (deleteOk : String → Bool) : RunResult :=
  let stopAfterTime := stopTimeFor fullInventory known
  let la := listLoop known stopAfterTime remote (initListAcc knownMeta fullInventory resumeOffset)
  let pa := la.enqueued.foldl (processItem fetchConversation)
    { metaMap := la.metaMap, updatedCount := 0, errorCount := 0, processed := la.processed,
      convs := [], errs := [], writes := [] }
  let rm :=
    if la.didFullInventory then
      removalPass options deleteOk pa.metaMap la.currentIds pa.errorCount
    else
      { metaMap := pa.metaMap, deletionAttempts := [], errorCount := pa.errorCount,
        removedIds := [] }
  { listing := la, proc := pa, metaMap := rm.metaMap,
    deletionAttempts := rm.deletionAttempts, removedIds := rm.removedIds,
    errorCount := rm.errorCount, updatedCount := pa.updatedCount,
    skippedCount := la.skippedCount, didFullInventory := la.didFullInventory,
    exit := la.exit,
    msgs := Msg.syncMode fullInventory resumeOffset (some 100)
      :: (la.skips.map (fun s => Msg.conversationSkip s.id s.title s.create_time s.update_time)
        ++ pa.convs.map (fun c => Msg.conversation c.id c.title c.create_time c.update_time)
        ++ pa.errs.map (fun e => Msg.conversationError (some e.1) e.2)
        ++ [Msg.syncComplete la.didFullInventory]),
    indexWritten := indexEntriesOfMeta rm.metaMap }

/-- Source: `const resumeOffset = forceFullInventory ? getResumeOffset(inventoryCursor) : 0`
— the listing start offset of a run. -/
def runStartOffset (fullInventory : Bool) (inventoryCursor : Option Cursor) (now : Nat) : Nat :=
  if fullInventory then getResumeOffset inventoryCursor now else 0

/-- Source: the head of `runSync` — merge a readable `index.json` snapshot
into the known state, decide full-vs-partial, pick the resume offset, then
run the engine. -/
def runSyncModel (options : Options) (storedConversations : AssocMap Nat)
    (storedMeta : AssocMap Meta) (lastFullInventoryAt : Option Nat)
    (inventoryCursor : Option Cursor) (now : Nat)
    (indexFile : Option (List IndexEntry)) (remote : List Page)
    (fetchConversation : String → Except String Conv)
    (deleteOk : String → Bool) : RunResult :=
  let indexState := indexFile.map readIndexModel
  let merged := mergeKnownState storedConversations storedMeta indexState
  let fullInventory := shouldForceFullInventory options merged.1 lastFullInventoryAt now
  contentRun options fullInventory merged.1 merged.2
    (runStartOffset fullInventory inventoryCursor now) remote
    fetchConversation deleteOk

/-! ### Cursor-advance machine (source: `maybeAdvanceCursor` / `markPageItemDone`)

Fetch completions are unordered; the machine below receives the terminal
events (one per item, tagged with the item's page index) in an arbitrary
order and mirrors the page-local counters of `runSync`. -/

/-- One `pageStates[i]` record (`remaining`, `nextOffset`, `done`). -/
structure CursorPage where
  remaining : Nat
  nextOffset : Nat
  done : Bool
  deriving DecidableEq, Inhabited

/-- The cursor-advance state: page states, `nextCursorIndex`, and the
sequence of cursor offsets emitted (each of which the source sends as a
forced `sync-progress` message that the background persists). -/
structure CursorMachine where
  fullInventory : Bool
  pages : List CursorPage
  nextCursorIndex : Nat
  emitted : List Nat
  deriving DecidableEq, Inhabited

/-- The `while` loop of `maybeAdvanceCursor`, with fuel (it advances at
most once per page). -/
def advanceAux : Nat → CursorMachine → CursorMachine
  | 0, m => m
  | fuel + 1, m =>
    match m.pages[m.nextCursorIndex]? with
    | some st =>
        if st.done then
          advanceAux fuel
            { m with emitted := m.emitted ++ [st.nextOffset],
                     nextCursorIndex := m.nextCursorIndex + 1 }
        else m
    | none => m

/-- Source: `maybeAdvanceCursor` — a no-op outside full-inventory mode. -/
def maybeAdvanceCursor (m : CursorMachine) : CursorMachine :=
  if m.fullInventory then advanceAux m.pages.length m else m

/-- Source: `markPageItemDone` — decrement the page's outstanding counter;
when it reaches zero, mark the page done and try to advance the cursor. -/
def markPageItemDone (m : CursorMachine) (pageIndex : Nat) : CursorMachine :=
  match m.pages[pageIndex]? with
  | none => m
  | some st =>
      if st.done then m
      else
        let remaining := st.remaining - 1
        if remaining = 0 then
          maybeAdvanceCursor
            { m with pages := m.pages.set pageIndex { st with remaining := remaining, done := true } }
        else { m with pages := m.pages.set pageIndex { st with remaining := remaining } }

/-- Feed an arbitrary sequence of per-item terminal events to the machine. -/
def runCompletionEvents (m : CursorMachine) (events : List Nat) : CursorMachine :=
  events.foldl markPageItemDone m

/-- Machine for a listing that contributed the given pages, each as
`(item count, next offset)`. -/
def initCursorMachine (fullInventory : Bool) (pages : List (Nat × Nat)) : CursorMachine :=
  { fullInventory := fullInventory,
    pages := pages.map (fun p => ⟨p.1, p.2, false⟩),
    nextCursorIndex := 0, emitted := [] }

/-- Item count a page contributed to the queue. -/
def cpCountAt (pages0 : List (Nat × Nat)) (i : Nat) : Nat :=
  ((pages0[i]?).map (·.1)).getD 0

/-- The next offset a page's checkpoint carries. -/
def cpOffsetAt (pages0 : List (Nat × Nat)) (i : Nat) : Nat :=
  ((pages0[i]?).map (·.2)).getD 0

/-- Run invariant of the cursor-advance machine over the terminal events
processed so far: page records keep their offsets, a page is done exactly
once all its contributed items have reached a terminal state, the emitted
checkpoints are the offsets of the pages before `nextCursorIndex` in
listing order, and every page before `nextCursorIndex` is done. -/
def cursorInv (pages0 : List (Nat × Nat)) (processed : List Nat) (m : CursorMachine) : Prop :=
  m.fullInventory = true
  ∧ m.pages.length = pages0.length
  ∧ m.nextCursorIndex ≤ m.pages.length
  ∧ (∀ i st, m.pages[i]? = some st → st.nextOffset = cpOffsetAt pages0 i)
  ∧ (∀ i st, m.pages[i]? = some st →
      (st.done = true → cpCountAt pages0 i ≤ processed.count i)
      ∧ (st.done = false → st.remaining + processed.count i = cpCountAt pages0 i
          ∧ 1 ≤ st.remaining))
  ∧ m.emitted = (pages0.take m.nextCursorIndex).map (·.2)
  ∧ (∀ i, i < m.nextCursorIndex → ∀ st, m.pages[i]? = some st → st.done = true)

/-- Classification invariant of the listing loop: items are enqueued for a
body fetch only when their observed time strictly exceeds the per-id known
watermark, and every listed item at or below its known watermark has a
`conversation-skip` record. -/
def classInv (known : AssocMap Nat) (a : ListAcc) : Prop :=
  (∀ it ∈ a.enqueued, amGetD known it.id 0 < itemTime it)
  ∧ (∀ it ∈ a.listedItems, itemTime it ≤ amGetD known it.id 0 →
      ∃ sd ∈ a.skips, sd.id = it.id)

/-! ### Concrete scenario data used by the claim checks -/

/-- Options with the delete-removed feature disabled. -/
def scenOptionsNoDelete : Options := ⟨false, true, true, 3⟩

/-- Prior watermarks: A, B and C known. -/
def scenKnown : AssocMap Nat := [("A", 1), ("B", 1), ("C", 9)]

/-- Prior metadata for A, B and C. -/
def scenKnownMeta : AssocMap Meta :=
  [("A", ⟨"a", 1, 1⟩), ("B", ⟨"b", 1, 1⟩), ("C", ⟨"c", 1, 9⟩)]

/-- A remote listing with a single final page observing only A and B. -/
def scenRemote : List Page :=
  [{ items := [⟨"A", "a", 2, 1⟩, ⟨"B", "b", 3, 1⟩], total := some 2,
     has_more := some false, limit := 100 }]

/-- A fetch oracle that always succeeds. -/
def scenFetch : String → Except String Conv := fun _ => .ok ⟨"t", 2, 1⟩

/-- The completed full-inventory pass over that remote, with deletion of
removed records disabled. -/
def scenRun : RunResult :=
  contentRun scenOptionsNoDelete true scenKnown scenKnownMeta 0 scenRemote scenFetch
    (fun _ => true)

/-- The stored background state before that pass. -/
def scenBgState : BgState :=
  { conversations := scenKnown, meta := scenKnownMeta, lastRun := [],
    lastFullInventoryAt := some 0, inventoryCursor := none, inventoryInProgress := false }

/-- Error-retry scenario: X known at watermark 5, remote lists X at 10. -/
def errScenState : BgState :=
  { conversations := [("X", 5)], meta := [("X", ⟨"x", 1, 5⟩)], lastRun := [],
    lastFullInventoryAt := some 0, inventoryCursor := none, inventoryInProgress := false }

/-- The unchanged remote listing of the error-retry scenario. -/
def errScenRemote : List Page :=
  [{ items := [⟨"X", "x", 10, 1⟩], total := some 1, has_more := some false, limit := 100 }]

/-- First run of the error-retry scenario: the body fetch for X fails. -/
def errScenRun1 : RunResult :=
  runSyncModel scenOptionsNoDelete errScenState.conversations errScenState.meta
    errScenState.lastFullInventoryAt errScenState.inventoryCursor 1000 none errScenRemote
    (fun _ => Except.error "boom") (fun _ => true)

/-- Background state after the first run of the error-retry scenario. -/
def errScenBg1 : BgAcc := bgRun 1000 ⟨errScenState, [], false⟩ errScenRun1.msgs

/-- Second run of the error-retry scenario: same remote listing, fetch now
succeeds, and the index snapshot the first run wrote is read back. -/
def errScenRun2 : RunResult :=
  runSyncModel scenOptionsNoDelete errScenBg1.state.conversations errScenBg1.state.meta
    errScenBg1.state.lastFullInventoryAt errScenBg1.state.inventoryCursor 2000
    (some errScenRun1.indexWritten) errScenRemote
    (fun _ => Except.ok ⟨"x", 10, 1⟩) (fun _ => true)

/-- Metadata floor for an id: a binding exists and every binding for the id
is at least `c` (used to track that a listed item's metadata entry never
drops below its listed time during a run). -/
def metaFloor (m : AssocMap Meta) (id : String) (c : Nat) : Prop :=
  (∃ me, amGet? m id = some me) ∧ ∀ me, (id, me) ∈ m → c ≤ me.update_time

/-- Concatenated items of a page list. -/
def itemsOfPages (ps : List Page) : List Item :=
  ps.foldr (fun p acc => p.items ++ acc) []

/-- Control-flow skeleton of the page loop: the pages a run classifies, as
a function of the stopping watermark, remote pages, current offset and page
count.  Mirrors `listPageStep`/`listLoop` (the empty-page, page-ceiling,
stopping-rule and continuation conditions). -/
def pagesTaken (stopAfterTime : Option Nat) : List Page → Nat → Nat → List Page
  | [], _, _ => []
  | p :: rest, offset, pageCount =>
    if p.items.isEmpty then []
    else if pageCount + 1 > maxPages then []
    else
      let stopFor := stopTimeTriggered stopAfterTime (pageMinUpdate p.items)
      let cont := !stopFor && (pageHasMore p offset || decide (p.items.length ≥ p.limit))
      p :: (if cont then
        pagesTaken stopAfterTime rest (offset + p.items.length) (pageCount + 1) else [])

/-- Two runs in succession over an unchanged remote: no index snapshot
before the first run; the background folds the first run's messages; the
second run reads the snapshot the first run wrote. -/
def secondRunOf (options : Options) (s0 : BgState) (now1 now2 : Nat) (remote : List Page)
    (fetch1 fetch2 : String → Except String Conv) (del1 del2 : String → Bool) : RunResult :=
  let run1 := runSyncModel options s0.conversations s0.meta s0.lastFullInventoryAt
      s0.inventoryCursor now1 none remote fetch1 del1
  let bg1 := bgRun now1 ⟨s0, [], false⟩ run1.msgs
  runSyncModel options bg1.state.conversations bg1.state.meta
    bg1.state.lastFullInventoryAt bg1.state.inventoryCursor now2
    (some run1.indexWritten) remote fetch2 del2

/-! ### Shared helper lemmas -/

theorem amGet?_amDel {α : Type} (m : AssocMap α) (k id : String) :
    amGet? (amDel m k) id = if id = k then none else amGet? m id := by
  induction m with
  | nil => simp [amDel, amGet?]
  | cons p rest ih =>
    by_cases hk : p.1 = k
    · rw [amDel, if_pos hk, ih]
      by_cases hid : id = k
      · simp [hid]
      · have : ¬ p.1 = id := fun h2 => hid ((h2.symm.trans hk))
        simp [hid, amGet?, this]
    · rw [amDel, if_neg hk]
      by_cases hid : p.1 = id
      · have : ¬ id = k := fun h2 => hk (hid.trans h2)
        simp [amGet?, hid, this]
      · simp [amGet?, hid, ih]

@[simp] theorem amGet?_amDel_self {α : Type} (m : AssocMap α) (id : String) :
    amGet? (amDel m id) id = none := by
  simp [amGet?_amDel]

theorem amGet?_amDel_ne {α : Type} (m : AssocMap α) (k id : String) (h : id ≠ k) :
    amGet? (amDel m k) id = amGet? m id := by
  simp [amGet?_amDel, h]

@[simp] theorem amGet?_amSet_self {α : Type} (m : AssocMap α) (id : String) (v : α) :
    amGet? (amSet m id v) id = some v := by
  simp [amSet, amGet?]

theorem amGet?_amSet_ne {α : Type} (m : AssocMap α) (k id : String) (v : α) (h : id ≠ k) :
    amGet? (amSet m k v) id = amGet? m id := by
  rw [amSet, amGet?, if_neg (fun h2 => h h2.symm)]
  exact amGet?_amDel_ne m k id h

theorem amGet?_amSet {α : Type} (m : AssocMap α) (k id : String) (v : α) :
    amGet? (amSet m k v) id = if k = id then some v else amGet? m id := by
  by_cases h : k = id
  · subst h; simp
  · rw [if_neg h, amGet?_amSet_ne m k id v (fun h2 => h h2.symm)]

theorem amGetD_amSet {α : Type} (m : AssocMap α) (k id : String) (v d : α) :
    amGetD (amSet m k v) id d = if k = id then v else amGetD m id d := by
  by_cases h : k = id <;> simp [amGetD, amGet?_amSet, h]

/-- A value stored anywhere in the map (source: one of `Object.values`). -/
theorem amGetD_mem_values {α : Type} (m : AssocMap α) (id : String) (d : α)
    (h : (amGet? m id).isSome) : amGetD m id d ∈ m.map (·.2) := by
  induction m with
  | nil => simp [amGet?] at h
  | cons p rest ih =>
    by_cases hk : p.1 = id
    · simp [amGetD, amGet?, hk]
    · simp only [amGet?, hk, if_false] at h
      simp only [amGetD, amGet?, hk, if_false, List.map_cons, List.mem_cons]
      exact Or.inr (ih h)

theorem amGet?_amRestrict {α : Type} (m : AssocMap α) (ids : List String) (id : String) :
    amGet? (amRestrict m ids) id = if id ∈ ids then amGet? m id else none := by
  induction m with
  | nil => simp [amRestrict, amGet?]
  | cons p rest ih =>
    by_cases hp : p.1 ∈ ids
    · rw [amRestrict, if_pos hp]
      by_cases hk : p.1 = id
      · subst hk; simp [amGet?, hp]
      · simp [amGet?, hk, ih]
    · rw [amRestrict, if_neg hp]
      by_cases hk : p.1 = id
      · subst hk
        simp [amGet?, hp, ih]
      · simp [amGet?, hk, ih]

theorem amGet?_eq_none_of_not_mem_keys {α : Type} (m : AssocMap α) (id : String)
    (h : id ∉ amKeys m) : amGet? m id = none := by
  induction m with
  | nil => rfl
  | cons p rest ih =>
    simp only [amKeys, List.map_cons, List.mem_cons] at h
    push_neg at h
    rw [amGet?, if_neg (fun h2 => h.1 h2.symm)]
    exact ih (by simpa [amKeys] using h.2)

/-! ### C6 — mode decision -/

/-- C6: the mode decision returns full inventory exactly when the first
matching rule applies — KnownState empty, or deleteRemoved enabled, or
`lastFullInventoryAt` absent/unparseable, or more than 24 hours elapsed
since the last full pass — and partial otherwise. -/
theorem mode_decision_first_match (options : Options) (known : AssocMap Nat)
    (lastFullInventoryAt : Option Nat) (now : Nat) :
    shouldForceFullInventory options known lastFullInventoryAt now = true ↔
      (known = [] ∨ options.deleteRemoved = true ∨ lastFullInventoryAt = none ∨
        ∃ lastFull, lastFullInventoryAt = some lastFull ∧
          now - lastFull > maxPartialAgeMs) := by
  unfold shouldForceFullInventory
  rcases lastFullInventoryAt with _ | t
  · by_cases h1 : known.isEmpty <;> by_cases h2 : options.deleteRemoved <;>
      simp_all [List.isEmpty_iff]
  · by_cases h1 : known.isEmpty <;> by_cases h2 : options.deleteRemoved <;>
      simp_all [List.isEmpty_iff]

/-! ### C7 — resume offset -/

/-- C7: with a well-formed cursor (one whose `updatedAt` was recorded, as
the background always does), the listing start offset equals the cursor's
offset exactly on a full-inventory pass whose cursor is within the 24-hour
staleness window, and is `0` in every other case — in particular on a
partial pass, when no cursor exists, or when the cursor is stale. -/
theorem resume_offset_spec (offset t now : Nat) :
    (now - t ≤ maxPartialAgeMs →
      runStartOffset true (some ⟨offset, some t⟩) now = offset)
    ∧ (now - t > maxPartialAgeMs →
      runStartOffset true (some ⟨offset, some t⟩) now = 0)
    ∧ (∀ c : Option Cursor, runStartOffset false c now = 0)
    ∧ runStartOffset true none now = 0 := by
  refine ⟨fun h => ?_, fun h => ?_, fun c => ?_, ?_⟩
  · rw [runStartOffset, if_pos rfl, getResumeOffset]
    simp only
    rw [if_neg (by omega)]
  · rw [runStartOffset, if_pos rfl, getResumeOffset]
    simp only
    rw [if_pos h]
  · simp [runStartOffset]
  · simp [runStartOffset, getResumeOffset]

/-- Witness for C7 at concrete inputs (a fresh cursor resumes at its offset). -/
theorem resume_offset_spec_witness :
    20 - 10 ≤ maxPartialAgeMs ∧ runStartOffset true (some ⟨5, some 10⟩) 20 = 5 :=
  ⟨by decide, (resume_offset_spec 5 10 20).1 (by decide)⟩

/-! ### C10 — index-snapshot merge at run start -/

theorem amGetD_mergeConversations (kc idx : AssocMap Nat) (id : String)
    (hnd : (amKeys idx).Nodup) :
    amGetD (mergeConversations kc idx) id 0
      = max (amGetD kc id 0) (amGetD idx id 0) := by
  induction idx generalizing kc with
  | nil => simp [mergeConversations, amGetD, amGet?]
  | cons p rest ih =>
    simp only [amKeys, List.map_cons, List.nodup_cons] at hnd
    have hrec := ih (amSet kc p.1 (max (amGetD kc p.1 0) p.2)) (by simpa [amKeys] using hnd.2)
    rw [mergeConversations] at hrec ⊢
    simp only [List.foldl_cons]
    rw [hrec]
    by_cases hk : p.1 = id
    · subst hk
      have hnone : amGet? rest p.1 = none :=
        amGet?_eq_none_of_not_mem_keys rest p.1 (by simpa [amKeys] using hnd.1)
      simp [amGetD, hnone, amGet?, Nat.max_assoc]
    · rw [amGetD_amSet, if_neg hk]
      simp [amGetD, amGet?, hk]

theorem mergeMetaStep_preserves (km : AssocMap Meta) (p : String × Meta)
    (id : String) (cur : Meta)
    (h : amGet? km id = some cur ∨
      ∃ e, amGet? km id = some e ∧ cur.update_time ≤ e.update_time) :
    amGet? (mergeMetaStep km p) id = some cur ∨
      ∃ e, amGet? (mergeMetaStep km p) id = some e ∧
        cur.update_time ≤ e.update_time := by
  by_cases hblank : p.1 = ""
  · simpa [mergeMetaStep, hblank] using h
  cases hm : amGet? km p.1 with
  | none =>
    have hres : mergeMetaStep km p = amSet km p.1 p.2 := by
      simp [mergeMetaStep, hblank, hm]
    rw [hres]
    by_cases hk : p.1 = id
    · subst hk
      rcases h with hsame | ⟨e, he, _⟩ <;> simp_all
    · have hne : id ≠ p.1 := fun h2 => hk h2.symm
      rw [amGet?_amSet_ne _ _ _ _ hne]
      exact h
  | some c =>
    by_cases hle2 : c.update_time ≤ p.2.update_time
    · have hres : mergeMetaStep km p
          = amSet km p.1 { p.2 with update_time := max c.update_time p.2.update_time } := by
        simp [mergeMetaStep, hblank, hm, hle2]
      rw [hres]
      by_cases hk : p.1 = id
      · subst hk
        rcases h with hsame | ⟨e, he, hle⟩
        · have hc : c = cur := by rw [hm] at hsame; injection hsame
          subst hc
          exact Or.inr ⟨_, amGet?_amSet_self _ _ _, le_max_left _ _⟩
        · have hc : c = e := by rw [hm] at he; injection he
          subst hc
          exact Or.inr ⟨_, amGet?_amSet_self _ _ _, le_trans hle (le_max_left _ _)⟩
      · have hne : id ≠ p.1 := fun h2 => hk h2.symm
        rw [amGet?_amSet_ne _ _ _ _ hne]
        exact h
    · have hres : mergeMetaStep km p = km := by
        simp [mergeMetaStep, hblank, hm, hle2]
      rw [hres]
      exact h

theorem mergeMeta_preserves_or_newer (idx km : AssocMap Meta) (id : String) (cur : Meta)
    (h : amGet? km id = some cur ∨
      ∃ e, amGet? km id = some e ∧ cur.update_time ≤ e.update_time) :
    amGet? (mergeMeta km idx) id = some cur ∨
      ∃ e, amGet? (mergeMeta km idx) id = some e ∧ cur.update_time ≤ e.update_time := by
  induction idx generalizing km with
  | nil => exact h
  | cons p rest ih =>
    have hcons : mergeMeta km (p :: rest) = mergeMeta (mergeMetaStep km p) rest := rfl
    rw [hcons]
    exact ih (mergeMetaStep km p) (mergeMetaStep_preserves km p id cur h)

/-- C10: at run start, when a snapshot is readable, the merged watermark of
every id is the maximum of the stored watermark and the snapshot's
`update_time` (defaults `0`), hence never below either input, and a stored
metadata entry is replaced only by an entry whose `update_time` is at least
the current one. -/
theorem merge_known_state_spec (kc : AssocMap Nat) (km : AssocMap Meta)
    (idx : IndexState) (hnd : (amKeys idx.conversations).Nodup) :
    (∀ id, amGetD (mergeKnownState kc km (some idx)).1 id 0
        = max (amGetD kc id 0) (amGetD idx.conversations id 0))
    ∧ (∀ id, amGetD kc id 0 ≤ amGetD (mergeKnownState kc km (some idx)).1 id 0
        ∧ amGetD idx.conversations id 0 ≤ amGetD (mergeKnownState kc km (some idx)).1 id 0)
    ∧ (∀ id cur, amGet? km id = some cur →
        amGet? (mergeKnownState kc km (some idx)).2 id = some cur ∨
          ∃ e, amGet? (mergeKnownState kc km (some idx)).2 id = some e ∧
            cur.update_time ≤ e.update_time) := by
  refine ⟨fun id => amGetD_mergeConversations kc idx.conversations id hnd, fun id => ?_, ?_⟩
  · rw [mergeKnownState]
    simp only
    rw [amGetD_mergeConversations kc idx.conversations id hnd]
    exact ⟨le_max_left _ _, le_max_right _ _⟩
  · intro id cur hc
    exact mergeMeta_preserves_or_newer idx.meta km id cur (Or.inl hc)

/-- Witness for C10 at a concrete snapshot. -/
theorem merge_known_state_spec_witness :
    (amKeys (([("a", 7), ("b", 3)] : AssocMap Nat))).Nodup
    ∧ amGetD (mergeKnownState [("a", 5)] [("a", ⟨"t", 1, 5⟩)]
        (some ⟨[("a", 7), ("b", 3)],
               [("a", ⟨"u", 2, 7⟩), ("b", ⟨"v", 1, 3⟩)]⟩)).1 "a" 0
      = max (amGetD ([("a", 5)] : AssocMap Nat) "a" 0)
          (amGetD ([("a", 7), ("b", 3)] : AssocMap Nat) "a" 0) :=
  ⟨by decide,
   (merge_known_state_spec [("a", 5)] [("a", ⟨"t", 1, 5⟩)]
      ⟨[("a", 7), ("b", 3)], [("a", ⟨"u", 2, 7⟩), ("b", ⟨"v", 1, 3⟩)]⟩ (by decide)).1 "a"⟩

/-! ### C1 — removal pass on a completed full inventory -/

theorem removalFold_metaMap_none (options : Options) (deleteOk : String → Bool)
    (ids : List String) (r : RemovalOut) (id : String) (h : amGet? r.metaMap id = none) :
    amGet? (ids.foldl (removalStep options deleteOk) r).metaMap id = none := by
  induction ids generalizing r with
  | nil => exact h
  | cons a rest ih =>
    rw [List.foldl_cons]
    apply ih
    show amGet? (amDel r.metaMap a) id = none
    rw [amGet?_amDel]
    by_cases hid : id = a <;> simp [hid, h]

theorem removalFold_metaMap_of_mem (options : Options) (deleteOk : String → Bool)
    (ids : List String) (r : RemovalOut) (id : String) (h : id ∈ ids) :
    amGet? (ids.foldl (removalStep options deleteOk) r).metaMap id = none := by
  induction ids generalizing r with
  | nil => cases h
  | cons a rest ih =>
    rcases List.mem_cons.mp h with rfl | hmem
    · rw [List.foldl_cons]
      apply removalFold_metaMap_none
      show amGet? (amDel r.metaMap id) id = none
      exact amGet?_amDel_self _ _
    · rw [List.foldl_cons]
      exact ih _ hmem

theorem removalFold_attempts (options : Options) (deleteOk : String → Bool)
    (ids : List String) (r : RemovalOut) :
    (ids.foldl (removalStep options deleteOk) r).deletionAttempts
      = r.deletionAttempts ++ (if options.deleteRemoved then ids else []) := by
  induction ids generalizing r with
  | nil => simp
  | cons a rest ih =>
    rw [List.foldl_cons, ih]
    by_cases hd : options.deleteRemoved <;> simp [removalStep, hd]

theorem removalFold_errorCount (options : Options) (deleteOk : String → Bool)
    (ids : List String) (r : RemovalOut) :
    (ids.foldl (removalStep options deleteOk) r).errorCount
      = r.errorCount + ids.countP (fun i => options.deleteRemoved && !(deleteOk i)) := by
  induction ids generalizing r with
  | nil => simp
  | cons a rest ih =>
    rw [List.foldl_cons, ih]
    rw [List.countP_cons]
    by_cases hpa : (options.deleteRemoved && !(deleteOk a)) = true <;>
      simp [removalStep, hpa] <;> omega

/-- C1 (counterexample): a completed full pass with `deleteRemoved` disabled
observes only A and B while C is in prior KnownState/metadata; C is *not*
retained — it is removed from the metadata map and pruned from the persisted
state — although no artifact deletion is attempted. -/
theorem removal_retention_counterexample :
    scenOptionsNoDelete.deleteRemoved = false
    ∧ amGet? scenKnownMeta "C" = some ⟨"c", 1, 9⟩
    ∧ scenRun.didFullInventory = true
    ∧ "C" ∉ scenRun.listing.currentIds
    ∧ scenRun.deletionAttempts = []
    ∧ amGet? scenRun.metaMap "C" = none
    ∧ amGet? (bgRun 1000 ⟨scenBgState, [], false⟩ scenRun.msgs).state.conversations "C" = none
    ∧ amGet? (bgRun 1000 ⟨scenBgState, [], false⟩ scenRun.msgs).state.meta "C" = none := by
  decide

/-- C1 (amended): on a completed full-inventory pass, every id present in
the metadata map but absent from the observed-id set is removed from the
metadata map (and the background prune on a full `sync-complete` drops it
from KnownState/metadata) regardless of `deleteRemoved`; artifact deletion
is attempted for it exactly when `deleteRemoved` is enabled — no attempt is
made otherwise — and each deletion failure adds one to the error counter
while the pass keeps going over the remaining removed ids. -/
theorem removal_pass_spec (options : Options) (deleteOk : String → Bool)
    (metaMap : AssocMap Meta) (currentIds : List String) (errorCount : Nat) (id : String)
    (hmem : id ∈ amKeys metaMap) (hout : id ∉ currentIds) :
    amGet? (removalPass options deleteOk metaMap currentIds errorCount).metaMap id = none
    ∧ (options.deleteRemoved = true →
        id ∈ (removalPass options deleteOk metaMap currentIds errorCount).deletionAttempts)
    ∧ (options.deleteRemoved = false →
        (removalPass options deleteOk metaMap currentIds errorCount).deletionAttempts = [])
    ∧ (removalPass options deleteOk metaMap currentIds errorCount).errorCount
        = errorCount + ((amKeys metaMap).filter (fun i => decide (i ∉ currentIds))).countP
            (fun i => options.deleteRemoved && !(deleteOk i))
    ∧ (∀ (now : Nat) (a : BgAcc), id ∉ a.currentIds →
        amGet? ((bgStep now a (Msg.syncComplete true)).state.conversations) id = none
        ∧ amGet? ((bgStep now a (Msg.syncComplete true)).state.meta) id = none) := by
  have hrem : id ∈ (amKeys metaMap).filter (fun i => decide (i ∉ currentIds)) :=
    List.mem_filter.mpr ⟨hmem, by simpa using hout⟩
  refine ⟨?_, ?_, ?_, ?_, ?_⟩
  · exact removalFold_metaMap_of_mem _ _ _ _ _ hrem
  · intro hd
    rw [removalPass, removalFold_attempts]
    simp [hd]
    exact ⟨hmem, hout⟩
  · intro hd
    rw [removalPass, removalFold_attempts]
    simp [hd]
  · rw [removalPass, removalFold_errorCount]
  · intro now a hnotin
    constructor <;> simp [bgStep, amGet?_amRestrict, hnotin]

/-- Witness for C1's amended theorem at the concrete scenario. -/
theorem removal_pass_spec_witness :
    ("C" ∈ amKeys scenKnownMeta ∧ "C" ∉ (["A", "B"] : List String))
    ∧ amGet? (removalPass scenOptionsNoDelete (fun _ => true)
        scenKnownMeta ["A", "B"] 0).metaMap "C" = none :=
  ⟨⟨by decide, by decide⟩,
   (removal_pass_spec scenOptionsNoDelete (fun _ => true) scenKnownMeta ["A", "B"] 0 "C"
      (by decide) (by decide)).1⟩

/-! ### C3 — watermark monotonicity -/

theorem bgStep_conversations_mono (now : Nat) (a : BgAcc) (m : Msg) (id : String)
    (h : isFullComplete m = false) :
    amGetD a.state.conversations id 0
      ≤ amGetD ((bgStep now a m).state.conversations) id 0 := by
  cases m with
  | conversation id2 title ct ut =>
    by_cases hk : id2 = id
    · subst hk
      simp [bgStep, amGetD_amSet]
    · simp [bgStep, amGetD_amSet, hk]
  | conversationSkip id2 title ct ut =>
    by_cases hk : id2 = id
    · subst hk
      simp [bgStep, amGetD_amSet]
    · simp [bgStep, amGetD_amSet, hk]
  | conversationError oid err =>
    cases oid <;> simp [bgStep]
  | syncMode full ro lim =>
    cases full <;> simp [bgStep]
  | syncProgress cur =>
    cases cur <;> by_cases hf : a.fullInventoryMode <;> simp [bgStep, hf]
  | syncComplete full =>
    cases full with
    | true => simp [isFullComplete] at h
    | false => by_cases hf : a.fullInventoryMode <;> simp [bgStep, hf]

theorem bgRun_conversations_mono (now : Nat) (a : BgAcc) (msgs : List Msg) (id : String)
    (h : ∀ m ∈ msgs, isFullComplete m = false) :
    amGetD a.state.conversations id 0
      ≤ amGetD ((bgRun now a msgs).state.conversations) id 0 := by
  induction msgs generalizing a with
  | nil => exact le_refl _
  | cons m rest ih =>
    calc amGetD a.state.conversations id 0
        ≤ amGetD ((bgStep now a m).state.conversations) id 0 :=
          bgStep_conversations_mono now a m id (h m (List.mem_cons_self _ _))
      _ ≤ amGetD ((bgRun now (bgStep now a m) rest).state.conversations) id 0 :=
          ih (bgStep now a m) (fun m2 hm2 => h m2 (List.mem_cons_of_mem _ hm2))

theorem isFullComplete_eq_true (m : Msg) (h : isFullComplete m = true) :
    m = Msg.syncComplete true := by
  cases m with
  | syncComplete full => cases full <;> simp_all [isFullComplete]
  | _ => simp_all [isFullComplete]

/-- C3: every `conversation` / `conversation-skip` message sets the stored
watermark to the maximum of the existing value and the newly observed time,
and across a whole run (whose pruning `sync-complete`, if any, is its final
message) the watermark of every id still present afterwards is at least its
value before the run — the watermark never moves backward. -/
theorem watermark_monotonicity (now : Nat) (a : BgAcc) (body : List Msg) (lastMsg : Msg)
    (h : ∀ m ∈ body, isFullComplete m = false) :
    (∀ (b : BgAcc) (id title : String) (ct ut : Nat),
      amGetD ((bgStep now b (Msg.conversation id title ct ut)).state.conversations) id 0
        = max (amGetD b.state.conversations id 0) ut
      ∧ amGetD ((bgStep now b (Msg.conversationSkip id title ct ut)).state.conversations) id 0
        = max (amGetD b.state.conversations id 0) ut
      ∧ (∀ oid err, (bgStep now b (Msg.conversationError oid err)).state.conversations
          = b.state.conversations))
    ∧ (∀ id, (amGet? ((bgRun now a (body ++ [lastMsg])).state.conversations) id).isSome →
        amGetD a.state.conversations id 0
          ≤ amGetD ((bgRun now a (body ++ [lastMsg])).state.conversations) id 0) := by
  constructor
  · intro b id title ct ut
    refine ⟨by simp [bgStep, amGetD_amSet], by simp [bgStep, amGetD_amSet], ?_⟩
    intro oid err
    cases oid <;> simp [bgStep]
  · intro id hsome
    have hsplit : bgRun now a (body ++ [lastMsg]) = bgStep now (bgRun now a body) lastMsg := by
      simp [bgRun]
    have hbody := bgRun_conversations_mono now a body id h
    cases hlast : isFullComplete lastMsg with
    | false =>
      rw [hsplit]
      exact le_trans hbody (bgStep_conversations_mono now _ lastMsg id hlast)
    | true =>
      have hm := isFullComplete_eq_true lastMsg hlast
      subst hm
      rw [hsplit] at hsome ⊢
      set b := bgRun now a body with hb
      have hconv : (bgStep now b (Msg.syncComplete true)).state.conversations
          = amRestrict b.state.conversations b.currentIds := by
        simp [bgStep]
      rw [hconv] at hsome ⊢
      rw [amGet?_amRestrict] at hsome
      by_cases hmem : id ∈ b.currentIds
      · have heq : amGetD (amRestrict b.state.conversations b.currentIds) id 0
            = amGetD b.state.conversations id 0 := by
          rw [amGetD, amGet?_amRestrict, if_pos hmem]
          rfl
        rw [heq]
        exact hbody
      · rw [if_neg hmem] at hsome
        simp at hsome

/-- Witness for C3 at a concrete run: the stored watermark of X rises from 3
to 5 across a run ending in a pruning `sync-complete`. -/
theorem watermark_monotonicity_witness :
    (∀ m ∈ [Msg.conversation "X" "t" 1 5], isFullComplete m = false)
    ∧ amGetD ((⟨⟨[("X", 3)], [], [], none, none, false⟩, [], false⟩ : BgAcc).state.conversations)
        "X" 0
      ≤ amGetD ((bgRun 7 ⟨⟨[("X", 3)], [], [], none, none, false⟩, [], false⟩
          ([Msg.conversation "X" "t" 1 5] ++ [Msg.syncComplete true])).state.conversations)
        "X" 0 :=
  ⟨by decide,
   (watermark_monotonicity 7 ⟨⟨[("X", 3)], [], [], none, none, false⟩, [], false⟩
      [Msg.conversation "X" "t" 1 5] (Msg.syncComplete true) (by decide)).2 "X" (by decide)⟩

/-! ### C5 — full-pass completeness gate -/

theorem listPageStep_stop_early (known : AssocMap Nat) (stopAfterTime : Option Nat)
    (p : Page) (a a' : ListAcc)
    (hstep : listPageStep known stopAfterTime p a = (false, a'))
    (h : a'.exit = ExitReason.pageCeiling ∨ a'.exit = ExitReason.emptyFirst) :
    a'.didFullInventory = false := by
  simp only [listPageStep] at hstep
  split at hstep
  · split at hstep
    · injection hstep with h1 h2
      subst h2
      rfl
    · injection hstep with h1 h2
      subst h2
      simp at h
  · split at hstep
    · injection hstep with h1 h2
      subst h2
      rfl
    · split at hstep
      · injection hstep with h1 h2
        exact Bool.noConfusion h1
      · injection hstep with h1 h2
        subst h2
        rcases h with h | h <;> simp at h <;> split at h <;> simp_all

theorem listLoop_early_exit (known : AssocMap Nat) (stopAfterTime : Option Nat)
    (remote : List Page) (a : ListAcc)
    (h : (listLoop known stopAfterTime remote a).exit = ExitReason.pageCeiling
      ∨ (listLoop known stopAfterTime remote a).exit = ExitReason.emptyFirst) :
    (listLoop known stopAfterTime remote a).didFullInventory = false := by
  induction remote generalizing a with
  | nil => simp [listLoop] at h
  | cons p rest ih =>
    rw [listLoop] at h ⊢
    by_cases hb : (listPageStep known stopAfterTime p a).1 = true
    · rw [if_pos hb] at h ⊢
      exact ih _ h
    · rw [if_neg hb] at h ⊢
      have hfst : (listPageStep known stopAfterTime p a).1 = false := by
        cases hfl : (listPageStep known stopAfterTime p a).1
        · rfl
        · exact absurd hfl hb
      have hstep : listPageStep known stopAfterTime p a
          = (false, (listPageStep known stopAfterTime p a).2) := by
        rw [← hfst]
      exact listPageStep_stop_early known stopAfterTime p a _ hstep h

theorem bgStep_lastFull (now : Nat) (a : BgAcc) (m : Msg) (h : isFullComplete m = false) :
    (bgStep now a m).state.lastFullInventoryAt = a.state.lastFullInventoryAt := by
  cases m with
  | conversation id title ct ut => simp [bgStep]
  | conversationSkip id title ct ut => simp [bgStep]
  | conversationError oid err => cases oid <;> simp [bgStep]
  | syncMode full ro lim => cases full <;> simp [bgStep]
  | syncProgress cur => cases cur <;> by_cases hf : a.fullInventoryMode <;> simp [bgStep, hf]
  | syncComplete full =>
    cases full with
    | true => simp [isFullComplete] at h
    | false => by_cases hf : a.fullInventoryMode <;> simp [bgStep, hf]

theorem bgRun_lastFull (now : Nat) (a : BgAcc) (msgs : List Msg)
    (h : ∀ m ∈ msgs, isFullComplete m = false) :
    (bgRun now a msgs).state.lastFullInventoryAt = a.state.lastFullInventoryAt := by
  induction msgs generalizing a with
  | nil => rfl
  | cons m rest ih =>
    have hstep : bgRun now a (m :: rest) = bgRun now (bgStep now a m) rest := rfl
    rw [hstep, ih (bgStep now a m) (fun m2 hm2 => h m2 (List.mem_cons_of_mem _ hm2))]
    exact bgStep_lastFull now a m (h m (List.mem_cons_self _ _))

theorem contentRun_msgs_eq (options : Options) (fullInventory : Bool)
    (known : AssocMap Nat) (knownMeta : AssocMap Meta) (resumeOffset : Nat)
    (remote : List Page) (fetchConversation : String → Except String Conv)
    (deleteOk : String → Bool) :
    (contentRun options fullInventory known knownMeta resumeOffset remote
        fetchConversation deleteOk).msgs
      = Msg.syncMode fullInventory resumeOffset (some 100)
        :: ((contentRun options fullInventory known knownMeta resumeOffset remote
              fetchConversation deleteOk).listing.skips.map
              (fun s => Msg.conversationSkip s.id s.title s.create_time s.update_time)
          ++ (contentRun options fullInventory known knownMeta resumeOffset remote
              fetchConversation deleteOk).proc.convs.map
              (fun c => Msg.conversation c.id c.title c.create_time c.update_time)
          ++ (contentRun options fullInventory known knownMeta resumeOffset remote
              fetchConversation deleteOk).proc.errs.map
              (fun e => Msg.conversationError (some e.1) e.2)
          ++ [Msg.syncComplete (contentRun options fullInventory known knownMeta resumeOffset
              remote fetchConversation deleteOk).didFullInventory]) := rfl

theorem contentRun_msgs_no_fullComplete (options : Options) (fullInventory : Bool)
    (known : AssocMap Nat) (knownMeta : AssocMap Meta) (resumeOffset : Nat)
    (remote : List Page) (fetchConversation : String → Except String Conv)
    (deleteOk : String → Bool)
    (hdid : (contentRun options fullInventory known knownMeta resumeOffset remote
        fetchConversation deleteOk).didFullInventory = false) :
    ∀ m ∈ (contentRun options fullInventory known knownMeta resumeOffset remote
        fetchConversation deleteOk).msgs, isFullComplete m = false := by
  intro m hm
  rw [contentRun_msgs_eq] at hm
  rcases List.mem_cons.mp hm with rfl | hm
  · rfl
  rcases List.mem_append.mp hm with hm | hm
  · rcases List.mem_append.mp hm with hm | hm
    · rcases List.mem_append.mp hm with hm | hm
      · obtain ⟨s, _, rfl⟩ := List.mem_map.mp hm
        rfl
      · obtain ⟨c, _, rfl⟩ := List.mem_map.mp hm
        rfl
    · obtain ⟨e, _, rfl⟩ := List.mem_map.mp hm
      rfl
  · rw [List.mem_singleton.mp hm, hdid]
    rfl

/-- C5: a full pass that ends via the page-count ceiling or the
no-items-on-first-page edge case clears `didFullInventory`, so the removal
step does not execute (no ids removed, no deletions attempted) and the
background leaves `lastFullInventoryAt` unchanged across the whole run;
the `sync-complete` handler sets `lastFullInventoryAt` to the current time
exactly when the message reports a completed full inventory. -/
theorem full_pass_completeness_gate (options : Options) (known : AssocMap Nat)
    (knownMeta : AssocMap Meta) (resumeOffset : Nat) (remote : List Page)
    (fetchConversation : String → Except String Conv) (deleteOk : String → Bool)
    (now : Nat) (a : BgAcc)
    (hexit : (contentRun options true known knownMeta resumeOffset remote
        fetchConversation deleteOk).exit = ExitReason.pageCeiling
      ∨ (contentRun options true known knownMeta resumeOffset remote
        fetchConversation deleteOk).exit = ExitReason.emptyFirst) :
    (contentRun options true known knownMeta resumeOffset remote
        fetchConversation deleteOk).didFullInventory = false
    ∧ (contentRun options true known knownMeta resumeOffset remote
        fetchConversation deleteOk).removedIds = []
    ∧ (contentRun options true known knownMeta resumeOffset remote
        fetchConversation deleteOk).deletionAttempts = []
    ∧ (bgRun now a (contentRun options true known knownMeta resumeOffset remote
        fetchConversation deleteOk).msgs).state.lastFullInventoryAt
      = a.state.lastFullInventoryAt
    ∧ (∀ (b : BgAcc) (full : Bool),
        (bgStep now b (Msg.syncComplete full)).state.lastFullInventoryAt
          = if full = true then some now else b.state.lastFullInventoryAt) := by
  have hexit2 : (listLoop known (stopTimeFor true known) remote
        (initListAcc knownMeta true resumeOffset)).exit = ExitReason.pageCeiling
      ∨ (listLoop known (stopTimeFor true known) remote
        (initListAcc knownMeta true resumeOffset)).exit = ExitReason.emptyFirst := hexit
  have hdid2 : (listLoop known (stopTimeFor true known) remote
      (initListAcc knownMeta true resumeOffset)).didFullInventory = false :=
    listLoop_early_exit known (stopTimeFor true known) remote
      (initListAcc knownMeta true resumeOffset) hexit2
  have hdid : (contentRun options true known knownMeta resumeOffset remote
      fetchConversation deleteOk).didFullInventory = false := hdid2
  refine ⟨hdid, ?_, ?_, ?_, ?_⟩
  · simp only [contentRun]
    rw [if_neg (by rw [hdid2]; exact Bool.false_ne_true)]
  · simp only [contentRun]
    rw [if_neg (by rw [hdid2]; exact Bool.false_ne_true)]
  · exact bgRun_lastFull now a _
      (contentRun_msgs_no_fullComplete options true known knownMeta resumeOffset remote
        fetchConversation deleteOk hdid)
  · intro b full
    cases full with
    | true => simp [bgStep]
    | false => by_cases hf : b.fullInventoryMode <;> simp [bgStep, hf]

/-- Witness for C5: a full pass whose first page returns no items does not
count as a completed inventory. -/
theorem full_pass_completeness_gate_witness :
    ((contentRun scenOptionsNoDelete true scenKnown scenKnownMeta 0
        [⟨[], none, none, 100⟩] scenFetch (fun _ => true)).exit = ExitReason.pageCeiling
      ∨ (contentRun scenOptionsNoDelete true scenKnown scenKnownMeta 0
        [⟨[], none, none, 100⟩] scenFetch (fun _ => true)).exit = ExitReason.emptyFirst)
    ∧ (contentRun scenOptionsNoDelete true scenKnown scenKnownMeta 0
        [⟨[], none, none, 100⟩] scenFetch (fun _ => true)).didFullInventory = false :=
  ⟨by decide,
   (full_pass_completeness_gate scenOptionsNoDelete scenKnown scenKnownMeta 0
      [⟨[], none, none, 100⟩] scenFetch (fun _ => true) 1000
      ⟨scenBgState, [], false⟩ (by decide)).1⟩

/-! ### C8 — cursor-advance ordering -/

theorem cmGetSet_self {α : Type} (l : List α) (i : Nat) (x : α) (h : i < l.length) :
    (l.set i x)[i]? = some x := by
  induction l generalizing i with
  | nil => simp at h
  | cons a rest ih =>
    cases i with
    | zero => simp [List.set]
    | succ n =>
      simp only [List.set]
      simpa using ih n (by simpa using h)

theorem cmGetSet_ne {α : Type} (l : List α) (i j : Nat) (x : α) (h : i ≠ j) :
    (l.set i x)[j]? = l[j]? := by
  induction l generalizing i j with
  | nil => simp
  | cons a rest ih =>
    cases i with
    | zero =>
      cases j with
      | zero => exact absurd rfl h
      | succ n => simp [List.set]
    | succ n =>
      cases j with
      | zero => simp [List.set]
      | succ k =>
        simp only [List.set]
        simpa using ih n k (fun hc => h (by rw [hc]))

theorem natCount_append_singleton (l : List Nat) (i j : Nat) :
    (l ++ [i]).count j = l.count j + (if j = i then 1 else 0) := by
  rw [List.count_append]
  by_cases hj : j = i
  · subst hj
    simp [List.count_cons]
  · simp [List.count_cons, hj]

theorem advanceAux_pages (fuel : Nat) (m : CursorMachine) :
    (advanceAux fuel m).pages = m.pages
    ∧ (advanceAux fuel m).fullInventory = m.fullInventory := by
  induction fuel generalizing m with
  | zero => exact ⟨rfl, rfl⟩
  | succ n ih =>
    cases hget : m.pages[m.nextCursorIndex]? with
    | none => simp [advanceAux, hget]
    | some st =>
      by_cases hd : st.done = true
      · simp only [advanceAux, hget, if_pos hd]
        exact ih _
      · simp [advanceAux, hget, if_neg hd]

theorem advanceAux_inv (pages0 : List (Nat × Nat)) (processed : List Nat)
    (fuel : Nat) (m : CursorMachine) (h : cursorInv pages0 processed m) :
    cursorInv pages0 processed (advanceAux fuel m) := by
  induction fuel generalizing m with
  | zero => exact h
  | succ n ih =>
    obtain ⟨hfull, hlen, hle, hoff, hcnt, hemit, hdone⟩ := h
    cases hget : m.pages[m.nextCursorIndex]? with
    | none =>
      simpa only [advanceAux, hget] using ⟨hfull, hlen, hle, hoff, hcnt, hemit, hdone⟩
    | some st =>
      by_cases hd : st.done = true
      · have hlt : m.nextCursorIndex < m.pages.length := by
          by_contra hcon
          rw [List.getElem?_eq_none (by omega)] at hget
          exact Option.noConfusion hget
        simp only [advanceAux, hget, if_pos hd]
        apply ih
        refine ⟨hfull, hlen, by simpa using Nat.succ_le_of_lt hlt, hoff, hcnt, ?_, ?_⟩
        · show m.emitted ++ [st.nextOffset]
            = (pages0.take (m.nextCursorIndex + 1)).map (·.2)
          have hlt0 : m.nextCursorIndex < pages0.length := hlen ▸ hlt
          rw [hemit, hoff _ _ hget, List.take_succ, List.map_append]
          congr 1
          rw [List.getElem?_eq_getElem hlt0]
          simp [cpOffsetAt, List.getElem?_eq_getElem hlt0]
        · intro i hi st2 hst2
          rcases Nat.lt_succ_iff_lt_or_eq.mp hi with hi2 | hi2
          · exact hdone i hi2 st2 hst2
          · subst hi2
            rw [hget] at hst2
            injection hst2 with he
            rw [he] at hd
            exact hd
      · simpa only [advanceAux, hget, if_neg hd]
          using ⟨hfull, hlen, hle, hoff, hcnt, hemit, hdone⟩

theorem markPageItemDone_inv (pages0 : List (Nat × Nat)) (processed : List Nat)
    (m : CursorMachine) (i : Nat) (h : cursorInv pages0 processed m) :
    cursorInv pages0 (processed ++ [i]) (markPageItemDone m i) := by
  obtain ⟨hfull, hlen, hle, hoff, hcnt, hemit, hdone⟩ := h
  have hcne : ∀ j, j ≠ i → (processed ++ [i]).count j = processed.count j := by
    intro j hj
    rw [natCount_append_singleton, if_neg hj]
    omega
  have hceq : (processed ++ [i]).count i = processed.count i + 1 := by
    rw [natCount_append_singleton, if_pos rfl]
  cases hget : m.pages[i]? with
  | none =>
    have hmach : markPageItemDone m i = m := by
      simp only [markPageItemDone, hget]
    rw [hmach]
    refine ⟨hfull, hlen, hle, hoff, ?_, hemit, hdone⟩
    intro j st hst
    have hjlt : j < m.pages.length := by
      by_contra hcon
      rw [List.getElem?_eq_none (by omega)] at hst
      exact Option.noConfusion hst
    have hige : m.pages.length ≤ i := by
      by_contra hcon
      rw [List.getElem?_eq_getElem (by omega)] at hget
      exact Option.noConfusion hget
    rw [hcne j (by omega)]
    exact hcnt j st hst
  | some st =>
    by_cases hd : st.done = true
    · have hmach : markPageItemDone m i = m := by
        simp only [markPageItemDone, hget, if_pos hd]
      rw [hmach]
      refine ⟨hfull, hlen, hle, hoff, ?_, hemit, hdone⟩
      intro j st2 hst2
      by_cases hj : j = i
      · subst hj
        rw [hget] at hst2
        injection hst2 with he
        subst he
        refine ⟨fun _ => ?_, fun hf => ?_⟩
        · exact le_trans ((hcnt _ _ hget).1 hd) (by rw [hceq]; omega)
        · rw [hf] at hd
          exact Bool.noConfusion hd
      · rw [hcne j hj]
        exact hcnt j st2 hst2
    · have hdf : st.done = false := by
        cases hdd : st.done
        · rfl
        · exact absurd hdd hd
      obtain ⟨hrem_eq, hrem_ge⟩ := (hcnt i st hget).2 hdf
      have hilt : i < m.pages.length := by
        by_contra hcon
        rw [List.getElem?_eq_none (by omega)] at hget
        exact Option.noConfusion hget
      have hige : m.nextCursorIndex ≤ i := by
        by_contra hcon
        have := hdone i (by omega) st hget
        rw [hdf] at this
        exact Bool.noConfusion this
      by_cases hz : st.remaining - 1 = 0
      · have hmach : markPageItemDone m i = maybeAdvanceCursor { m with pages := m.pages.set i ({ st with remaining := st.remaining - 1, done := true }) } := by
          simp only [markPageItemDone, hget, if_neg hd, if_pos hz]
        rw [hmach, maybeAdvanceCursor, if_pos hfull]
        apply advanceAux_inv
        refine ⟨hfull, by simpa using hlen, by simpa using hle, ?_, ?_, hemit, ?_⟩
        · intro j st2 hst2
          by_cases hj : j = i
          · subst hj
            rw [cmGetSet_self _ _ _ hilt] at hst2
            injection hst2 with he
            rw [← he]
            exact hoff j st hget
          · rw [cmGetSet_ne _ _ _ _ (fun hc => hj hc.symm)] at hst2
            exact hoff j st2 hst2
        · intro j st2 hst2
          by_cases hj : j = i
          · subst hj
            rw [cmGetSet_self _ _ _ hilt] at hst2
            injection hst2 with he
            subst he
            refine ⟨fun _ => ?_, fun hf => Bool.noConfusion hf⟩
            rw [hceq]
            omega
          · rw [cmGetSet_ne _ _ _ _ (fun hc => hj hc.symm)] at hst2
            rw [hcne j hj]
            exact hcnt j st2 hst2
        · intro j hjlt st2 hst2
          by_cases hj : j = i
          · subst hj
            rw [cmGetSet_self _ _ _ hilt] at hst2
            injection hst2 with he
            rw [← he]
          · rw [cmGetSet_ne _ _ _ _ (fun hc => hj hc.symm)] at hst2
            exact hdone j hjlt st2 hst2
      · have hmach : markPageItemDone m i =
            { m with pages := m.pages.set i ({ st with remaining := st.remaining - 1 }) } := by
          simp only [markPageItemDone, hget, if_neg hd, if_neg hz]
        rw [hmach]
        refine ⟨hfull, by simpa using hlen, by simpa using hle, ?_, ?_, hemit, ?_⟩
        · intro j st2 hst2
          by_cases hj : j = i
          · subst hj
            rw [cmGetSet_self _ _ _ hilt] at hst2
            injection hst2 with he
            rw [← he]
            exact hoff j st hget
          · rw [cmGetSet_ne _ _ _ _ (fun hc => hj hc.symm)] at hst2
            exact hoff j st2 hst2
        · intro j st2 hst2
          by_cases hj : j = i
          · subst hj
            rw [cmGetSet_self _ _ _ hilt] at hst2
            injection hst2 with he
            subst he
            have hproj : ({ st with remaining := st.remaining - 1 } : CursorPage).remaining
                = st.remaining - 1 := rfl
            have hprojd : ({ st with remaining := st.remaining - 1 } : CursorPage).done
                = st.done := rfl
            refine ⟨fun hf => ?_, fun _ => ?_⟩
            · rw [hprojd, hdf] at hf
              exact absurd hf (by exact fun hc => Bool.noConfusion hc)
            · rw [hproj, hceq]
              omega
          · rw [cmGetSet_ne _ _ _ _ (fun hc => hj hc.symm)] at hst2
            rw [hcne j hj]
            exact hcnt j st2 hst2
        · intro j hjlt st2 hst2
          have hn : ({ m with pages := m.pages.set i ({ st with remaining := st.remaining - 1 }) }
              : CursorMachine).nextCursorIndex = m.nextCursorIndex := rfl
          rw [hn] at hjlt
          by_cases hj : j = i
          · omega
          · rw [cmGetSet_ne _ _ _ _ (fun hc => hj hc.symm)] at hst2
            exact hdone j hjlt st2 hst2

theorem runCompletionEvents_inv (pages0 : List (Nat × Nat)) (events : List Nat)
    (processed : List Nat) (m : CursorMachine) (h : cursorInv pages0 processed m) :
    cursorInv pages0 (processed ++ events) (runCompletionEvents m events) := by
  induction events generalizing m processed with
  | nil => simpa using h
  | cons e rest ih =>
    have hstep : runCompletionEvents m (e :: rest)
        = runCompletionEvents (markPageItemDone m e) rest := rfl
    rw [hstep]
    have := ih (processed ++ [e]) (markPageItemDone m e)
      (markPageItemDone_inv pages0 processed m e h)
    simpa using this

theorem initCursorMachine_inv (pages0 : List (Nat × Nat))
    (hcnt : ∀ p ∈ pages0, 1 ≤ p.1) :
    cursorInv pages0 [] (initCursorMachine true pages0) := by
  refine ⟨rfl, by simp [initCursorMachine], by simp [initCursorMachine], ?_, ?_, rfl, ?_⟩
  · intro i st hst
    simp only [initCursorMachine, List.getElem?_map] at hst
    cases hg : pages0[i]? with
    | none => rw [hg] at hst; exact Option.noConfusion hst
    | some p =>
      rw [hg] at hst
      injection hst with he
      rw [← he]
      simp [cpOffsetAt, hg]
  · intro i st hst
    simp only [initCursorMachine, List.getElem?_map] at hst
    cases hg : pages0[i]? with
    | none => rw [hg] at hst; exact Option.noConfusion hst
    | some p =>
      rw [hg] at hst
      injection hst with he
      rw [← he]
      refine ⟨fun hf => Bool.noConfusion hf, fun _ => ?_⟩
      constructor
      · simp [cpCountAt, hg]
      · exact hcnt p (by
          have : i < pages0.length := by
            by_contra hcon
            rw [List.getElem?_eq_none (by omega)] at hg
            exact Option.noConfusion hg
          rw [List.getElem?_eq_getElem this] at hg
          injection hg with he2
          rw [← he2]
          exact List.getElem_mem _)
  · intro i hi st hst
    simp [initCursorMachine] at hi

/-- C8: feeding the cursor machine of a full-inventory listing any order of
per-item terminal events, the emitted (and persisted) checkpoint offsets are
exactly the next offsets of the first `nextCursorIndex` pages in listing
order, and a page's offset is emitted only once at least its full item count
has reached a terminal state (for that page and every earlier one); a
cursor-bearing `sync-progress` message is persisted verbatim by the
background while in full-inventory mode. -/
theorem cursor_advance_ordering (pages0 : List (Nat × Nat)) (events : List Nat)
    (hcnt : ∀ p ∈ pages0, 1 ≤ p.1) :
    (runCompletionEvents (initCursorMachine true pages0) events).emitted
      = (pages0.take (runCompletionEvents (initCursorMachine true pages0)
          events).nextCursorIndex).map (·.2)
    ∧ (∀ i, i < (runCompletionEvents (initCursorMachine true pages0) events).nextCursorIndex →
        cpCountAt pages0 i ≤ events.count i)
    ∧ (∀ (now : Nat) (b : BgAcc) (c : SyncCursor), b.fullInventoryMode = true →
        (bgStep now b (Msg.syncProgress (some c))).state.inventoryCursor
          = some ⟨c.offset, some now⟩) := by
  have hinv := runCompletionEvents_inv pages0 events [] (initCursorMachine true pages0)
    (initCursorMachine_inv pages0 hcnt)
  obtain ⟨hfull, hlen, hle, hoff, hcnt2, hemit, hdone⟩ := hinv
  refine ⟨hemit, ?_, ?_⟩
  · intro i hi
    have hilt : i < (runCompletionEvents (initCursorMachine true pages0) events).pages.length := by
      omega
    have hsome := List.getElem?_eq_getElem hilt
    have hdn := hdone i hi _ hsome
    have := (hcnt2 i _ hsome).1 hdn
    simpa using this
  · intro now b c hf
    simp [bgStep, hf]

/-- Witness for C8: two pages of sizes 2 and 1; the second page completes
first, yet the checkpoints come out in listing order. -/
theorem cursor_advance_ordering_witness :
    (∀ p ∈ ([(2, 10), (1, 13)] : List (Nat × Nat)), 1 ≤ p.1)
    ∧ (runCompletionEvents (initCursorMachine true [(2, 10), (1, 13)]) [1, 0, 0]).emitted
      = (([(2, 10), (1, 13)] : List (Nat × Nat)).take
          (runCompletionEvents (initCursorMachine true [(2, 10), (1, 13)])
            [1, 0, 0]).nextCursorIndex).map (·.2) :=
  ⟨by decide,
   (cursor_advance_ordering [(2, 10), (1, 13)] [1, 0, 0] (by decide)).1⟩

/-! ### C4 — partial-pass classification and stopping rule -/

theorem pageMinFold_le_acc (items : List Item) (acc : Nat) (hacc : acc ≠ 0)
    (hpos : ∀ it ∈ items, 0 < itemTime it) :
    items.foldl pageMinStep acc ≤ acc ∧ items.foldl pageMinStep acc ≠ 0 := by
  induction items generalizing acc with
  | nil => exact ⟨le_refl _, hacc⟩
  | cons a rest ih =>
    have ha := hpos a (List.mem_cons_self _ _)
    have hstep : pageMinStep acc a ≤ acc ∧ pageMinStep acc a ≠ 0 := by
      unfold pageMinStep
      split
      · next hcond =>
        rcases hcond with h0 | hlt
        · exact absurd h0 hacc
        · exact ⟨le_of_lt hlt, by omega⟩
      · exact ⟨le_refl _, hacc⟩
    have hrest := ih (pageMinStep acc a) hstep.2
      (fun it hit => hpos it (List.mem_cons_of_mem _ hit))
    exact ⟨le_trans hrest.1 hstep.1, hrest.2⟩

theorem pageMinFold_le_item (items : List Item) (acc : Nat)
    (hpos : ∀ it ∈ items, 0 < itemTime it) :
    ∀ it ∈ items, items.foldl pageMinStep acc ≤ itemTime it := by
  induction items generalizing acc with
  | nil => intro it hit; cases hit
  | cons a rest ih =>
    intro it hit
    have ha := hpos a (List.mem_cons_self _ _)
    have hstep_ne : pageMinStep acc a ≠ 0 := by
      unfold pageMinStep
      split
      · omega
      · next hcond =>
        push_neg at hcond
        exact hcond.1
    have hstep_le : pageMinStep acc a ≤ itemTime a := by
      unfold pageMinStep
      split
      · exact le_refl _
      · next hcond =>
        push_neg at hcond
        exact hcond.2
    rcases List.mem_cons.mp hit with rfl | hit2
    · rw [List.foldl_cons]
      exact le_trans (pageMinFold_le_acc rest (pageMinStep acc it) hstep_ne
        (fun jt hjt => hpos jt (List.mem_cons_of_mem _ hjt))).1 hstep_le
    · rw [List.foldl_cons]
      exact ih (pageMinStep acc a) (fun jt hjt => hpos jt (List.mem_cons_of_mem _ hjt)) it hit2

theorem pageMinUpdate_le (items : List Item)
    (hpos : ∀ it ∈ items, 0 < itemTime it) :
    ∀ it ∈ items, pageMinUpdate items ≤ itemTime it :=
  pageMinFold_le_item items 0 hpos

theorem pageMinUpdate_pos (items : List Item) (hne : items ≠ [])
    (hpos : ∀ it ∈ items, 0 < itemTime it) : 0 < pageMinUpdate items := by
  cases items with
  | nil => exact absurd rfl hne
  | cons a rest =>
    have ha := hpos a (List.mem_cons_self _ _)
    have h1 : pageMinStep 0 a = itemTime a := by
      unfold pageMinStep
      rw [if_pos (Or.inl rfl)]
    unfold pageMinUpdate
    rw [List.foldl_cons, h1]
    have := pageMinFold_le_acc rest (itemTime a) (by omega)
      (fun jt hjt => hpos jt (List.mem_cons_of_mem _ hjt))
    omega

theorem stopTimeTriggered_iff (w pmin : Nat) (hw : 0 < w) (hp : 0 < pmin) :
    stopTimeTriggered (some w) pmin = true ↔ pmin ≤ w := by
  unfold stopTimeTriggered
  simp only [Bool.and_eq_true, decide_eq_true_eq]
  constructor
  · intro h
    exact h.2
  · intro h
    exact ⟨⟨by omega, by omega⟩, h⟩

theorem classifyItem_fields (known : AssocMap Nat) (a : ListAcc) (it : Item) :
    (classifyItem known a it).processedPages = a.processedPages
    ∧ (classifyItem known a it).didFullInventory = a.didFullInventory
    ∧ (classifyItem known a it).offset = a.offset
    ∧ (classifyItem known a it).limit = a.limit
    ∧ (classifyItem known a it).pageCount = a.pageCount
    ∧ (classifyItem known a it).listedCount = a.listedCount
    ∧ (classifyItem known a it).exit = a.exit := by
  simp only [classifyItem]
  by_cases hle : itemTime it ≤ amGetD known it.id 0
  · rw [if_pos hle]
    exact ⟨rfl, rfl, rfl, rfl, rfl, rfl, rfl⟩
  · rw [if_neg hle]
    exact ⟨rfl, rfl, rfl, rfl, rfl, rfl, rfl⟩

theorem classifyFold_fields (known : AssocMap Nat) (items : List Item) (a : ListAcc) :
    (items.foldl (classifyItem known) a).processedPages = a.processedPages
    ∧ (items.foldl (classifyItem known) a).didFullInventory = a.didFullInventory
    ∧ (items.foldl (classifyItem known) a).offset = a.offset
    ∧ (items.foldl (classifyItem known) a).limit = a.limit
    ∧ (items.foldl (classifyItem known) a).pageCount = a.pageCount
    ∧ (items.foldl (classifyItem known) a).listedCount = a.listedCount
    ∧ (items.foldl (classifyItem known) a).exit = a.exit := by
  induction items generalizing a with
  | nil => exact ⟨rfl, rfl, rfl, rfl, rfl, rfl, rfl⟩
  | cons b rest ih =>
    have h1 := classifyItem_fields known a b
    have h2 := ih (classifyItem known a b)
    rw [List.foldl_cons]
    exact ⟨h2.1.trans h1.1, h2.2.1.trans h1.2.1, h2.2.2.1.trans h1.2.2.1,
      h2.2.2.2.1.trans h1.2.2.2.1, h2.2.2.2.2.1.trans h1.2.2.2.2.1,
      h2.2.2.2.2.2.1.trans h1.2.2.2.2.2.1, h2.2.2.2.2.2.2.trans h1.2.2.2.2.2.2⟩

theorem classifyItem_classInv (known : AssocMap Nat) (a : ListAcc) (it : Item)
    (h : classInv known a) : classInv known (classifyItem known a it) := by
  obtain ⟨henq, hskip⟩ := h
  simp only [classifyItem]
  by_cases hle : itemTime it ≤ amGetD known it.id 0
  · rw [if_pos hle]
    constructor
    · intro jt hjt
      exact henq jt hjt
    · intro jt hjt hle2
      rcases List.mem_append.mp hjt with hjt | hjt
      · obtain ⟨sd, hsd, hid⟩ := hskip jt hjt hle2
        exact ⟨sd, List.mem_append_left _ hsd, hid⟩
      · rw [List.mem_singleton.mp hjt]
        exact ⟨_, List.mem_append_right _ (List.mem_singleton_self _), rfl⟩
  · rw [if_neg hle]
    constructor
    · intro jt hjt
      rcases List.mem_append.mp hjt with hjt | hjt
      · exact henq jt hjt
      · rw [List.mem_singleton.mp hjt]
        omega
    · intro jt hjt hle2
      rcases List.mem_append.mp hjt with hjt | hjt
      · exact hskip jt hjt hle2
      · rw [List.mem_singleton.mp hjt] at hle2
        exact absurd hle2 hle

theorem classifyFold_classInv (known : AssocMap Nat) (items : List Item) (a : ListAcc)
    (h : classInv known a) : classInv known (items.foldl (classifyItem known) a) := by
  induction items generalizing a with
  | nil => exact h
  | cons b rest ih =>
    rw [List.foldl_cons]
    exact ih (classifyItem known a b) (classifyItem_classInv known a b h)

theorem listPageStep_classInv (known : AssocMap Nat) (stopAfterTime : Option Nat)
    (p : Page) (a : ListAcc) (h : classInv known a) :
    classInv known (listPageStep known stopAfterTime p a).2 := by
  simp only [listPageStep]
  split
  · split
    · exact h
    · exact h
  · split
    · exact h
    · split
      · exact classifyFold_classInv known p.items _ h
      · exact classifyFold_classInv known p.items _ h

theorem listLoop_classInv (known : AssocMap Nat) (stopAfterTime : Option Nat)
    (remote : List Page) (a : ListAcc) (h : classInv known a) :
    classInv known (listLoop known stopAfterTime remote a) := by
  induction remote generalizing a with
  | nil => exact h
  | cons p rest ih =>
    rw [listLoop]
    by_cases hb : (listPageStep known stopAfterTime p a).1 = true
    · rw [if_pos hb]
      exact ih _ (listPageStep_classInv known stopAfterTime p a h)
    · rw [if_neg hb]
      exact listPageStep_classInv known stopAfterTime p a h

theorem listPageStep_pp_cases (known : AssocMap Nat) (stopAfterTime : Option Nat)
    (p : Page) (a : ListAcc) :
    (listPageStep known stopAfterTime p a).2.processedPages = a.processedPages
    ∨ ((listPageStep known stopAfterTime p a).2.processedPages = a.processedPages ++ [p]
        ∧ p.items ≠ []) := by
  simp only [listPageStep]
  split
  · split
    · left; rfl
    · left; rfl
  · next hne =>
    split
    · left; rfl
    · right
      refine ⟨?_, by simpa using hne⟩
      split
      · exact (classifyFold_fields known p.items _).1
      · exact (classifyFold_fields known p.items _).1

theorem listPageStep_continue_props (known : AssocMap Nat) (stopAfterTime : Option Nat)
    (p : Page) (a : ListAcc) (h : (listPageStep known stopAfterTime p a).1 = true) :
    stopTimeTriggered stopAfterTime (pageMinUpdate p.items) = false
    ∧ (listPageStep known stopAfterTime p a).2.processedPages = a.processedPages ++ [p]
    ∧ p.items ≠ []
    ∧ (listPageStep known stopAfterTime p a).2.exit = a.exit := by
  simp only [listPageStep] at h ⊢
  by_cases he : p.items.isEmpty = true
  · rw [if_pos he] at h
    by_cases hl : a.listedCount = 0
    · rw [if_pos hl] at h
      exact Bool.noConfusion h
    · rw [if_neg hl] at h
      exact Bool.noConfusion h
  · rw [if_neg he] at h ⊢
    by_cases hc : a.pageCount + 1 > maxPages
    · rw [if_pos hc] at h
      exact Bool.noConfusion h
    · rw [if_neg hc] at h ⊢
      by_cases hcond : (!stopTimeTriggered stopAfterTime (pageMinUpdate p.items)
          && (pageHasMore p a.offset || decide (p.items.length ≥ p.limit))) = true
      · rw [if_pos hcond] at h ⊢
        refine ⟨?_, ?_, by simpa using he, ?_⟩
        · cases hsf : stopTimeTriggered stopAfterTime (pageMinUpdate p.items)
          · rfl
          · rw [hsf] at hcond
            simp at hcond
        · exact (classifyFold_fields known p.items _).1
        · exact (classifyFold_fields known p.items _).2.2.2.2.2.2
      · rw [if_neg hcond] at h
        exact Bool.noConfusion h

theorem listLoop_pp_subset (known : AssocMap Nat) (stopAfterTime : Option Nat)
    (remote : List Page) (a : ListAcc) :
    ∀ q ∈ (listLoop known stopAfterTime remote a).processedPages,
      q ∈ a.processedPages ∨ q ∈ remote := by
  induction remote generalizing a with
  | nil => intro q hq; exact Or.inl hq
  | cons p rest ih =>
    intro q hq
    rw [listLoop] at hq
    by_cases hb : (listPageStep known stopAfterTime p a).1 = true
    · rw [if_pos hb] at hq
      rcases ih _ q hq with hq2 | hq2
      · rcases listPageStep_pp_cases known stopAfterTime p a with hpp | ⟨hpp, -⟩
        · rw [hpp] at hq2
          exact Or.inl hq2
        · rw [hpp] at hq2
          rcases List.mem_append.mp hq2 with hq3 | hq3
          · exact Or.inl hq3
          · exact Or.inr (List.mem_cons.mpr (Or.inl (List.mem_singleton.mp hq3)))
      · exact Or.inr (List.mem_cons_of_mem _ hq2)
    · rw [if_neg hb] at hq
      rcases listPageStep_pp_cases known stopAfterTime p a with hpp | ⟨hpp, -⟩
      · rw [hpp] at hq
        exact Or.inl hq
      · rw [hpp] at hq
        rcases List.mem_append.mp hq with hq3 | hq3
        · exact Or.inl hq3
        · exact Or.inr (List.mem_cons.mpr (Or.inl (List.mem_singleton.mp hq3)))

theorem listLoop_pp_inv (known : AssocMap Nat) (stopAfterTime : Option Nat)
    (remote : List Page) (a : ListAcc)
    (h : ∀ p ∈ a.processedPages,
      stopTimeTriggered stopAfterTime (pageMinUpdate p.items) = false ∧ p.items ≠ []) :
    (∀ p ∈ (listLoop known stopAfterTime remote a).processedPages.dropLast,
        stopTimeTriggered stopAfterTime (pageMinUpdate p.items) = false)
    ∧ (∀ p ∈ (listLoop known stopAfterTime remote a).processedPages, p.items ≠ []) := by
  induction remote generalizing a with
  | nil =>
    constructor
    · intro q hq
      exact (h q ((List.dropLast_sublist _).subset hq)).1
    · intro q hq
      exact (h q hq).2
  | cons p rest ih =>
    rw [listLoop]
    by_cases hb : (listPageStep known stopAfterTime p a).1 = true
    · rw [if_pos hb]
      obtain ⟨hsf, hpp, hne, -⟩ := listPageStep_continue_props known stopAfterTime p a hb
      apply ih
      intro q hq
      rw [hpp] at hq
      rcases List.mem_append.mp hq with hq | hq
      · exact h q hq
      · rw [List.mem_singleton.mp hq]
        exact ⟨hsf, hne⟩
    · rw [if_neg hb]
      rcases listPageStep_pp_cases known stopAfterTime p a with hpp | ⟨hpp, hne⟩
      · rw [hpp]
        constructor
        · intro q hq
          exact (h q ((List.dropLast_sublist _).subset hq)).1
        · intro q hq
          exact (h q hq).2
      · rw [hpp]
        constructor
        · intro q hq
          rw [List.dropLast_concat] at hq
          exact (h q hq).1
        · intro q hq
          rcases List.mem_append.mp hq with hq | hq
          · exact (h q hq).2
          · rw [List.mem_singleton.mp hq]
            exact hne

theorem listPageStep_false_exit_none (known : AssocMap Nat) (p : Page) (a a' : ListAcc)
    (hstep : listPageStep known none p a = (false, a')) :
    a'.exit ≠ ExitReason.stopTime := by
  simp only [listPageStep] at hstep
  split at hstep
  · split at hstep
    · injection hstep with h1 h2
      subst h2
      simp
    · injection hstep with h1 h2
      subst h2
      simp
  · split at hstep
    · injection hstep with h1 h2
      subst h2
      simp
    · split at hstep
      · injection hstep with h1 h2
        exact Bool.noConfusion h1
      · injection hstep with h1 h2
        subst h2
        simp [stopTimeTriggered]

theorem listLoop_none_no_stopTime (known : AssocMap Nat) (remote : List Page) (a : ListAcc)
    (ha : a.exit ≠ ExitReason.stopTime) :
    (listLoop known none remote a).exit ≠ ExitReason.stopTime := by
  induction remote generalizing a with
  | nil => simp [listLoop]
  | cons p rest ih =>
    rw [listLoop]
    by_cases hb : (listPageStep known none p a).1 = true
    · rw [if_pos hb]
      obtain ⟨-, -, -, hexit⟩ := listPageStep_continue_props known none p a hb
      exact ih _ (by rw [hexit]; exact ha)
    · rw [if_neg hb]
      have hfst : (listPageStep known none p a).1 = false := by
        cases hfl : (listPageStep known none p a).1
        · rfl
        · exact absurd hfl hb
      have hstep : listPageStep known none p a
          = (false, (listPageStep known none p a).2) := by
        rw [← hfst]
      exact listPageStep_false_exit_none known p a _ hstep

/-- C4: in a partial pass from offset 0 with known watermark
`W = getMaxKnownUpdateTime known` positive and all remote item times
positive: (i) every enqueued (fetched) item's observed time strictly
exceeds its per-id known value, (ii) every listed item at or below its
per-id known value gets a `conversation-skip` record (no body fetch),
(iii) every processed page except the last has page minimum strictly above
`W` — listing stops at the first page whose minimum is ≤ `W` — where
(iv) `pageMinUpdate` really is a lower bound on the page's item times, and
(v) a full pass never exits via the stopping rule. -/
theorem partial_pass_stop_and_skip (options : Options) (known : AssocMap Nat)
    (knownMeta : AssocMap Meta) (remote : List Page) (resumeOffset : Nat)
    (fetchConversation : String → Except String Conv) (deleteOk : String → Bool)
    (hW : 0 < getMaxKnownUpdateTime known)
    (hpos : ∀ p ∈ remote, ∀ it ∈ p.items, 0 < itemTime it) :
    (∀ it ∈ (contentRun options false known knownMeta 0 remote fetchConversation
        deleteOk).listing.enqueued, amGetD known it.id 0 < itemTime it)
    ∧ (∀ it ∈ (contentRun options false known knownMeta 0 remote fetchConversation
        deleteOk).listing.listedItems, itemTime it ≤ amGetD known it.id 0 →
          ∃ sd ∈ (contentRun options false known knownMeta 0 remote fetchConversation
            deleteOk).listing.skips, sd.id = it.id)
    ∧ (∀ p ∈ (contentRun options false known knownMeta 0 remote fetchConversation
        deleteOk).listing.processedPages.dropLast,
          getMaxKnownUpdateTime known < pageMinUpdate p.items)
    ∧ (∀ p ∈ (contentRun options false known knownMeta 0 remote fetchConversation
        deleteOk).listing.processedPages, ∀ it ∈ p.items,
          pageMinUpdate p.items ≤ itemTime it)
    ∧ (contentRun options true known knownMeta resumeOffset remote fetchConversation
        deleteOk).exit ≠ ExitReason.stopTime := by
  have hclass : classInv known (listLoop known (stopTimeFor false known) remote
      (initListAcc knownMeta false 0)) :=
    listLoop_classInv known (stopTimeFor false known) remote (initListAcc knownMeta false 0)
      ⟨fun it hit => absurd hit (List.not_mem_nil _), fun it hit => absurd hit (List.not_mem_nil _)⟩
  have hpp := listLoop_pp_inv known (stopTimeFor false known) remote
    (initListAcc knownMeta false 0) (fun p hp => absurd hp (List.not_mem_nil _))
  have hsub := listLoop_pp_subset known (stopTimeFor false known) remote
    (initListAcc knownMeta false 0)
  refine ⟨hclass.1, hclass.2, ?_, ?_, ?_⟩
  · intro p hp
    have hmem : p ∈ (listLoop known (stopTimeFor false known) remote
        (initListAcc knownMeta false 0)).processedPages :=
      (List.dropLast_sublist _).subset hp
    have hrem : p ∈ remote := by
      rcases hsub p hmem with hq | hq
      · exact absurd hq (List.not_mem_nil _)
      · exact hq
    have hposp := hpos p hrem
    have hne := hpp.2 p hmem
    have hpmin : 0 < pageMinUpdate p.items := pageMinUpdate_pos p.items hne hposp
    have hsf := hpp.1 p hp
    have hiff := stopTimeTriggered_iff (getMaxKnownUpdateTime known)
      (pageMinUpdate p.items) hW hpmin
    have : stopTimeTriggered (some (getMaxKnownUpdateTime known))
        (pageMinUpdate p.items) = false := hsf
    by_contra hcon
    push_neg at hcon
    rw [hiff.mpr hcon] at this
    exact Bool.noConfusion this
  · intro p hp it hit
    have hrem : p ∈ remote := by
      rcases hsub p hp with hq | hq
      · exact absurd hq (List.not_mem_nil _)
      · exact hq
    exact pageMinUpdate_le p.items (hpos p hrem) it hit
  · exact listLoop_none_no_stopTime known remote (initListAcc knownMeta true resumeOffset)
      (by simp [initListAcc])

/-- Witness for C4 at the concrete scenario: item A (listed time 2, known
watermark 1) is enqueued, so its known value is strictly below its time. -/
theorem partial_pass_stop_and_skip_witness :
    (0 < getMaxKnownUpdateTime scenKnown
      ∧ (∀ p ∈ scenRemote, ∀ it ∈ p.items, 0 < itemTime it))
    ∧ amGetD scenKnown "A" 0 < itemTime ⟨"A", "a", 2, 1⟩ :=
  ⟨⟨by decide, by decide⟩,
   (partial_pass_stop_and_skip scenOptionsNoDelete scenKnown scenKnownMeta scenRemote 99
      scenFetch (fun _ => true) (by decide) (by decide)).1 ⟨"A", "a", 2, 1⟩ (by decide)⟩

/-! ### C2: failed body fetch — error record, watermark, and retry -/

/-- C2: after a failed body fetch the run reports `conversation-error`, the
background records a `lastRun` entry with status `error`, the failure
message and the prior `update_time`, and the stored watermark is left
unchanged — but the id is NOT re-enqueued on the next partial pass over the
same remote listing: the pre-enqueue metadata write records the newly
listed update time, the end-of-run `index.json` snapshot persists it, the
next run merges it back into the known state, and the id is classified
unchanged (skipped) instead of pending. -/
theorem fetch_error_retry_divergence :
    errScenRun1.listing.enqueued = [⟨"X", "x", 10, 1⟩]
    ∧ errScenRun1.errorCount = 1
    ∧ amGet? errScenBg1.state.lastRun "X"
        = some ⟨RunStatus.error, 5, 1000, some "boom"⟩
    ∧ amGet? errScenBg1.state.conversations "X" = some 5
    ∧ amGet? (readIndexModel errScenRun1.indexWritten).conversations "X" = some 10
    ∧ errScenRun2.listing.enqueued = []
    ∧ errScenRun2.skippedCount = 1
    ∧ errScenRun2.updatedCount = 0 := by
  decide

/-! ### C9 groundwork: membership, merge and watermark lemmas -/

theorem mem_amDel {α : Type} (m : AssocMap α) (k : String) (x : String × α)
    (h : x ∈ amDel m k) : x ∈ m ∧ x.1 ≠ k := by
  induction m with
  | nil => exact absurd h (List.not_mem_nil _)
  | cons p rest ih =>
    rw [amDel] at h
    by_cases hp : p.1 = k
    · rw [if_pos hp] at h
      obtain ⟨h1, h2⟩ := ih h
      exact ⟨List.mem_cons_of_mem _ h1, h2⟩
    · rw [if_neg hp] at h
      rcases List.mem_cons.mp h with rfl | h2
      · exact ⟨List.mem_cons_self _ _, hp⟩
      · obtain ⟨h1, h3⟩ := ih h2
        exact ⟨List.mem_cons_of_mem _ h1, h3⟩

theorem amGet?_mem {α : Type} (m : AssocMap α) (id : String) (v : α)
    (h : amGet? m id = some v) : (id, v) ∈ m := by
  induction m with
  | nil => exact absurd h (by simp [amGet?])
  | cons p rest ih =>
    rcases p with ⟨k, w⟩
    rw [amGet?] at h
    by_cases hk : k = id
    · rw [if_pos hk] at h
      injection h with h2
      subst hk; subst h2
      exact List.mem_cons_self _ _
    · rw [if_neg hk] at h
      exact List.mem_cons_of_mem _ (ih h)

theorem mergeConversations_ge_left (kc idx : AssocMap Nat) (k : String) :
    amGetD kc k 0 ≤ amGetD (mergeConversations kc idx) k 0 := by
  induction idx generalizing kc with
  | nil => exact le_refl _
  | cons p rest ih =>
    have hstep : mergeConversations kc (p :: rest)
        = mergeConversations (amSet kc p.1 (max (amGetD kc p.1 0) p.2)) rest := rfl
    rw [hstep]
    refine le_trans ?_ (ih _)
    rw [amGetD_amSet]
    by_cases hp : p.1 = k
    · rw [if_pos hp]
      subst hp
      exact le_max_left _ _
    · rw [if_neg hp]

theorem mergeConversations_ge_lookup (kc idx : AssocMap Nat) (k : String) (v : Nat)
    (h : amGet? idx k = some v) : v ≤ amGetD (mergeConversations kc idx) k 0 := by
  induction idx generalizing kc with
  | nil => exact absurd h (by simp [amGet?])
  | cons p rest ih =>
    have hstep : mergeConversations kc (p :: rest)
        = mergeConversations (amSet kc p.1 (max (amGetD kc p.1 0) p.2)) rest := rfl
    rw [hstep]
    rcases p with ⟨k2, v2⟩
    rw [amGet?] at h
    by_cases hk : k2 = k
    · rw [if_pos hk] at h
      injection h with h2
      subst hk; subst h2
      refine le_trans ?_ (mergeConversations_ge_left _ rest k2)
      rw [amGetD_amSet, if_pos rfl]
      exact le_max_right _ _
    · rw [if_neg hk] at h
      exact ih _ h

theorem mergeConversations_ne_nil (kc idx : AssocMap Nat) (h : kc ≠ []) :
    mergeConversations kc idx ≠ [] := by
  induction idx generalizing kc with
  | nil => exact h
  | cons p rest ih =>
    have hstep : mergeConversations kc (p :: rest)
        = mergeConversations (amSet kc p.1 (max (amGetD kc p.1 0) p.2)) rest := rfl
    rw [hstep]
    exact ih _ (List.cons_ne_nil _ _)

theorem maxKnownFold_ge_init (m : AssocMap Nat) (init : Nat) :
    init ≤ m.foldl (fun maxTime p => if p.2 > maxTime then p.2 else maxTime) init := by
  induction m generalizing init with
  | nil => exact le_refl _
  | cons p rest ih =>
    rw [List.foldl_cons]
    refine le_trans ?_ (ih _)
    by_cases hp : p.2 > init
    · rw [if_pos hp]; omega
    · rw [if_neg hp]

theorem maxKnownFold_ge_mem (m : AssocMap Nat) (init : Nat) (k : String) (v : Nat)
    (h : (k, v) ∈ m) :
    v ≤ m.foldl (fun maxTime p => if p.2 > maxTime then p.2 else maxTime) init := by
  induction m generalizing init with
  | nil => exact absurd h (List.not_mem_nil _)
  | cons p rest ih =>
    rw [List.foldl_cons]
    rcases List.mem_cons.mp h with heq | hmem
    · have hv : p.2 = v := by rw [← heq]
      refine le_trans ?_ (maxKnownFold_ge_init rest _)
      by_cases hp : p.2 > init
      · rw [if_pos hp]; omega
      · rw [if_neg hp]; omega
    · exact ih _ hmem

theorem maxKnown_ge_mem (m : AssocMap Nat) (k : String) (v : Nat) (h : (k, v) ∈ m) :
    v ≤ getMaxKnownUpdateTime m :=
  maxKnownFold_ge_mem m 0 k v h

theorem maxKnownFold_attained (m : AssocMap Nat) (init : Nat) :
    m.foldl (fun maxTime p => if p.2 > maxTime then p.2 else maxTime) init = init
    ∨ ∃ k v, (k, v) ∈ m
        ∧ m.foldl (fun maxTime p => if p.2 > maxTime then p.2 else maxTime) init = v := by
  induction m generalizing init with
  | nil => exact Or.inl rfl
  | cons p rest ih =>
    rw [List.foldl_cons]
    rcases ih (if p.2 > init then p.2 else init) with heq | ⟨k, v, hmem, heq⟩
    · rw [heq]
      by_cases hp : p.2 > init
      · rw [if_pos hp]
        exact Or.inr ⟨p.1, p.2, List.mem_cons_self _ _, rfl⟩
      · rw [if_neg hp]
        exact Or.inl rfl
    · exact Or.inr ⟨k, v, List.mem_cons_of_mem _ hmem, heq⟩

theorem maxKnown_attained (m : AssocMap Nat) (h : getMaxKnownUpdateTime m ≠ 0) :
    ∃ k v, (k, v) ∈ m ∧ getMaxKnownUpdateTime m = v := by
  rcases maxKnownFold_attained m 0 with heq | hex
  · exact absurd heq h
  · exact hex

theorem amGet?_of_mem_nodup {α : Type} (m : AssocMap α) (k : String) (v : α)
    (hnd : (amKeys m).Nodup) (h : (k, v) ∈ m) : amGet? m k = some v := by
  induction m with
  | nil => exact absurd h (List.not_mem_nil _)
  | cons p rest ih =>
    rw [amKeys, List.map_cons, List.nodup_cons] at hnd
    rcases List.mem_cons.mp h with heq | hmem
    · rw [← heq, amGet?, if_pos rfl]
    · rw [amGet?]
      by_cases hp : p.1 = k
      · exfalso
        apply hnd.1
        have hin : (k, v).1 ∈ rest.map (·.1) := List.mem_map_of_mem _ hmem
        rw [hp]
        exact hin
      · rw [if_neg hp]
        exact ih hnd.2 hmem

theorem stopTriggered_mono (w1 w2 pmin : Nat) (hW : w1 ≤ w2)
    (h : stopTimeTriggered (some w1) pmin = true) :
    stopTimeTriggered (some w2) pmin = true := by
  simp only [stopTimeTriggered, Bool.and_eq_true, decide_eq_true_eq] at h ⊢
  omega

theorem bgStep_conversations_ne_nil (now : Nat) (a : BgAcc) (m : Msg)
    (hfc : isFullComplete m = false) (h : a.state.conversations ≠ []) :
    (bgStep now a m).state.conversations ≠ [] := by
  cases m with
  | conversation id title ct ut => exact List.cons_ne_nil _ _
  | conversationSkip id title ct ut => exact List.cons_ne_nil _ _
  | conversationError oid err => cases oid with
    | some id => exact h
    | none => exact h
  | syncMode full ro lim => cases full with
    | true => exact h
    | false => exact h
  | syncProgress cur =>
    by_cases hf : a.fullInventoryMode = true
    · cases cur with
      | some c => simp only [bgStep, hf, if_true]; exact h
      | none => simp only [bgStep, hf, if_true]; exact h
    · simp only [bgStep, if_neg hf]
      cases cur with
      | some c => exact h
      | none => exact h
  | syncComplete full =>
    cases full with
    | true => simp [isFullComplete] at hfc
    | false =>
      by_cases hf : a.fullInventoryMode = true
      · simp only [bgStep, hf, if_true]
        exact h
      · simp only [bgStep, if_neg hf]
        exact h

theorem bgRun_conversations_ne_nil (now : Nat) (a : BgAcc) (msgs : List Msg)
    (hfc : ∀ m ∈ msgs, isFullComplete m = false) (h : a.state.conversations ≠ []) :
    (bgRun now a msgs).state.conversations ≠ [] := by
  induction msgs generalizing a with
  | nil => exact h
  | cons m rest ih =>
    exact ih (bgStep now a m) (fun m2 hm2 => hfc m2 (List.mem_cons_of_mem _ hm2))
      (bgStep_conversations_ne_nil now a m (hfc m (List.mem_cons_self _ _)) h)

theorem shouldForce_eq_false (options : Options) (known : AssocMap Nat) (t now : Nat)
    (hdel : options.deleteRemoved = false) (hne : known ≠ [])
    (hrecent : now - t ≤ maxPartialAgeMs) :
    shouldForceFullInventory options known (some t) now = false := by
  have h1 : known.isEmpty = false := by
    cases known with
    | nil => exact absurd rfl hne
    | cons p rest => rfl
  simp only [shouldForceFullInventory, h1, hdel, Bool.false_eq_true, if_false,
    decide_eq_false_iff_not]
  omega

theorem runSyncModel_partial_none (options : Options) (sc : AssocMap Nat)
    (sm : AssocMap Meta) (lf : Option Nat) (cursor : Option Cursor) (now : Nat)
    (remote : List Page) (fetch : String → Except String Conv) (del : String → Bool)
    (hmode : shouldForceFullInventory options sc lf now = false) :
    runSyncModel options sc sm lf cursor now none remote fetch del
      = contentRun options false sc sm 0 remote fetch del := by
  have h : runSyncModel options sc sm lf cursor now none remote fetch del
      = contentRun options (shouldForceFullInventory options sc lf now) sc sm
          (runStartOffset (shouldForceFullInventory options sc lf now) cursor now)
          remote fetch del := rfl
  rw [h, hmode]
  rfl

theorem runSyncModel_partial_some (options : Options) (sc : AssocMap Nat)
    (sm : AssocMap Meta) (lf : Option Nat) (cursor : Option Cursor) (now : Nat)
    (entries : List IndexEntry) (remote : List Page)
    (fetch : String → Except String Conv) (del : String → Bool)
    (hmode : shouldForceFullInventory options
        (mergeConversations sc (readIndexModel entries).conversations) lf now = false) :
    runSyncModel options sc sm lf cursor now (some entries) remote fetch del
      = contentRun options false
          (mergeConversations sc (readIndexModel entries).conversations)
          (mergeMeta sm (readIndexModel entries).meta) 0 remote fetch del := by
  have h : runSyncModel options sc sm lf cursor now (some entries) remote fetch del
      = contentRun options
          (shouldForceFullInventory options
            (mergeConversations sc (readIndexModel entries).conversations) lf now)
          (mergeConversations sc (readIndexModel entries).conversations)
          (mergeMeta sm (readIndexModel entries).meta)
          (runStartOffset
            (shouldForceFullInventory options
              (mergeConversations sc (readIndexModel entries).conversations) lf now)
            cursor now)
          remote fetch del := rfl
  rw [h, hmode]
  rfl

theorem listPageStep_did_false (known : AssocMap Nat) (stop : Option Nat) (p : Page)
    (a : ListAcc) (h : a.didFullInventory = false) :
    (listPageStep known stop p a).2.didFullInventory = false := by
  simp only [listPageStep]
  split
  · split
    · rfl
    · exact h
  · split
    · rfl
    · split
      · exact (classifyFold_fields known p.items _).2.1.trans (by rw [h, Bool.false_and])
      · exact (classifyFold_fields known p.items _).2.1.trans (by rw [h, Bool.false_and])

theorem listLoop_did_false (known : AssocMap Nat) (stop : Option Nat) (remote : List Page)
    (a : ListAcc) (h : a.didFullInventory = false) :
    (listLoop known stop remote a).didFullInventory = false := by
  induction remote generalizing a with
  | nil => exact h
  | cons p rest ih =>
    rw [listLoop]
    by_cases hb : (listPageStep known stop p a).1 = true
    · rw [if_pos hb]
      exact ih _ (listPageStep_did_false known stop p a h)
    · rw [if_neg hb]
      exact listPageStep_did_false known stop p a h

theorem contentRun_updated_of_enq_nil (options : Options) (fullInventory : Bool)
    (known : AssocMap Nat) (knownMeta : AssocMap Meta) (resumeOffset : Nat)
    (remote : List Page) (fetch : String → Except String Conv) (del : String → Bool)
    (h : (contentRun options fullInventory known knownMeta resumeOffset remote
        fetch del).listing.enqueued = []) :
    (contentRun options fullInventory known knownMeta resumeOffset remote
        fetch del).updatedCount = 0 := by
  have h2 : (listLoop known (stopTimeFor fullInventory known) remote
      (initListAcc knownMeta fullInventory resumeOffset)).enqueued = [] := h
  show (((listLoop known (stopTimeFor fullInventory known) remote
      (initListAcc knownMeta fullInventory resumeOffset)).enqueued).foldl
        (processItem fetch)
        { metaMap := (listLoop known (stopTimeFor fullInventory known) remote
            (initListAcc knownMeta fullInventory resumeOffset)).metaMap,
          updatedCount := 0, errorCount := 0,
          processed := (listLoop known (stopTimeFor fullInventory known) remote
            (initListAcc knownMeta fullInventory resumeOffset)).processed,
          convs := [], errs := [], writes := [] }).updatedCount = 0
  rw [h2]
  rfl

theorem itemsOfPages_cons (p : Page) (rest : List Page) :
    itemsOfPages (p :: rest) = p.items ++ itemsOfPages rest := rfl

theorem itemsOfPages_append (l1 l2 : List Page) :
    itemsOfPages (l1 ++ l2) = itemsOfPages l1 ++ itemsOfPages l2 := by
  induction l1 with
  | nil => rfl
  | cons p rest ih =>
    rw [List.cons_append, itemsOfPages_cons, itemsOfPages_cons, ih, List.append_assoc]

theorem mem_itemsOfPages (ps : List Page) (it : Item) (h : it ∈ itemsOfPages ps) :
    ∃ p ∈ ps, it ∈ p.items := by
  induction ps with
  | nil => exact absurd h (List.not_mem_nil _)
  | cons p rest ih =>
    rw [itemsOfPages_cons] at h
    rcases List.mem_append.mp h with h1 | h2
    · exact ⟨p, List.mem_cons_self _ _, h1⟩
    · obtain ⟨q, hq, hiq⟩ := ih h2
      exact ⟨q, List.mem_cons_of_mem _ hq, hiq⟩

theorem itemsOfPages_mem (ps : List Page) (p : Page) (hp : p ∈ ps) (it : Item)
    (hit : it ∈ p.items) : it ∈ itemsOfPages ps := by
  induction ps with
  | nil => exact absurd hp (List.not_mem_nil _)
  | cons q rest ih =>
    rw [itemsOfPages_cons]
    rcases List.mem_cons.mp hp with rfl | h2
    · exact List.mem_append_left _ hit
    · exact List.mem_append_right _ (ih h2)

theorem metaFloor_amSet_same (m : AssocMap Meta) (id : String) (c : Nat) (v : Meta)
    (hv : c ≤ v.update_time) : metaFloor (amSet m id v) id c := by
  constructor
  · exact ⟨v, by rw [amSet, amGet?, if_pos rfl]⟩
  · intro me hme
    rcases List.mem_cons.mp hme with heq | hmem
    · have : me = v := by
        have := congrArg Prod.snd heq
        exact this
      rw [this]
      exact hv
    · exact absurd rfl (mem_amDel m id (id, me) hmem).2

theorem metaFloor_amSet_other (m : AssocMap Meta) (id k : String) (c : Nat) (v : Meta)
    (hk : k ≠ id) (h : metaFloor m id c) : metaFloor (amSet m k v) id c := by
  constructor
  · obtain ⟨me, hme⟩ := h.1
    exact ⟨me, by rw [amGet?_amSet_ne m k id v (fun h2 => hk h2.symm)]; exact hme⟩
  · intro me hme
    rcases List.mem_cons.mp hme with heq | hmem
    · exact absurd (congrArg Prod.fst heq).symm hk
    · exact h.2 me (mem_amDel m k (id, me) hmem).1

theorem classifyItem_listed (known : AssocMap Nat) (a : ListAcc) (it : Item) :
    (classifyItem known a it).listedItems = a.listedItems ++ [it] := by
  simp only [classifyItem]
  by_cases hle : itemTime it ≤ amGetD known it.id 0
  · rw [if_pos hle]
  · rw [if_neg hle]

theorem classifyFold_listed (known : AssocMap Nat) (items : List Item) (a : ListAcc) :
    (items.foldl (classifyItem known) a).listedItems = a.listedItems ++ items := by
  induction items generalizing a with
  | nil => rw [List.foldl_nil, List.append_nil]
  | cons b rest ih =>
    rw [List.foldl_cons, ih, classifyItem_listed]
    simp

theorem listPageStep_empty_eval (known : AssocMap Nat) (stop : Option Nat) (p : Page)
    (a : ListAcc) (he : p.items.isEmpty = true) :
    (listPageStep known stop p a).1 = false
    ∧ (listPageStep known stop p a).2.listedItems = a.listedItems := by
  simp only [listPageStep]
  rw [if_pos he]
  by_cases hl : a.listedCount = 0
  · rw [if_pos hl]
    exact ⟨rfl, rfl⟩
  · rw [if_neg hl]
    exact ⟨rfl, rfl⟩

theorem listPageStep_ceiling_eval (known : AssocMap Nat) (stop : Option Nat) (p : Page)
    (a : ListAcc) (he : p.items.isEmpty = false) (hc : a.pageCount + 1 > maxPages) :
    (listPageStep known stop p a).1 = false
    ∧ (listPageStep known stop p a).2.listedItems = a.listedItems := by
  simp only [listPageStep]
  rw [if_neg (by rw [he]; exact Bool.false_ne_true), if_pos hc]
  exact ⟨rfl, rfl⟩

theorem listPageStep_normal_eval (known : AssocMap Nat) (stop : Option Nat) (p : Page)
    (a : ListAcc) (he : p.items.isEmpty = false) (hc : ¬(a.pageCount + 1 > maxPages)) :
    (listPageStep known stop p a).1
      = (!stopTimeTriggered stop (pageMinUpdate p.items)
          && (pageHasMore p a.offset || decide (p.items.length ≥ p.limit)))
    ∧ (listPageStep known stop p a).2.listedItems = a.listedItems ++ p.items
    ∧ (listPageStep known stop p a).2.offset = a.offset + p.items.length
    ∧ (listPageStep known stop p a).2.pageCount = a.pageCount + 1 := by
  simp only [listPageStep]
  rw [if_neg (by rw [he]; exact Bool.false_ne_true), if_neg hc]
  by_cases hcond : (!stopTimeTriggered stop (pageMinUpdate p.items)
      && (pageHasMore p a.offset || decide (p.items.length ≥ p.limit))) = true
  · rw [if_pos hcond, hcond]
    refine ⟨rfl, ?_, ?_, ?_⟩
    · exact classifyFold_listed known p.items _
    · rw [(classifyFold_fields known p.items _).2.2.1]
    · rw [(classifyFold_fields known p.items _).2.2.2.2.1]
  · rw [if_neg hcond]
    have hcondf : (!stopTimeTriggered stop (pageMinUpdate p.items)
        && (pageHasMore p a.offset || decide (p.items.length ≥ p.limit))) = false := by
      cases hcase : (!stopTimeTriggered stop (pageMinUpdate p.items)
          && (pageHasMore p a.offset || decide (p.items.length ≥ p.limit))) with
      | false => rfl
      | true => exact absurd hcase hcond
    rw [hcondf]
    refine ⟨rfl, ?_, ?_, ?_⟩
    · exact classifyFold_listed known p.items _
    · rw [(classifyFold_fields known p.items _).2.2.1]
    · rw [(classifyFold_fields known p.items _).2.2.2.2.1]

theorem listLoop_listed_pagesTaken (known : AssocMap Nat) (stop : Option Nat)
    (remote : List Page) (a : ListAcc) :
    (listLoop known stop remote a).listedItems
      = a.listedItems ++ itemsOfPages (pagesTaken stop remote a.offset a.pageCount) := by
  induction remote generalizing a with
  | nil => simp [listLoop, pagesTaken, itemsOfPages]
  | cons p rest ih =>
    rw [listLoop]
    simp only [pagesTaken]
    by_cases he : p.items.isEmpty = true
    · obtain ⟨h1, h2⟩ := listPageStep_empty_eval known stop p a he
      rw [h1, if_neg Bool.false_ne_true, h2, if_pos he]
      simp [itemsOfPages]
    · have he2 : p.items.isEmpty = false := by
        cases hcase : p.items.isEmpty with
        | false => rfl
        | true => exact absurd hcase he
      rw [if_neg he]
      by_cases hc : a.pageCount + 1 > maxPages
      · obtain ⟨h1, h2⟩ := listPageStep_ceiling_eval known stop p a he2 hc
        rw [h1, if_neg Bool.false_ne_true, h2, if_pos hc]
        simp [itemsOfPages]
      · obtain ⟨h1, h2, h3, h4⟩ := listPageStep_normal_eval known stop p a he2 hc
        rw [if_neg hc]
        by_cases hcond : (!stopTimeTriggered stop (pageMinUpdate p.items)
            && (pageHasMore p a.offset || decide (p.items.length ≥ p.limit))) = true
        · have hb : (listPageStep known stop p a).1 = true := by rw [h1]; exact hcond
          rw [hb, if_pos rfl, ih, h2, h3, h4, if_pos hcond, itemsOfPages_cons,
            List.append_assoc]
        · have hb : (listPageStep known stop p a).1 = false := by
            rw [h1]
            cases hcase : (!stopTimeTriggered stop (pageMinUpdate p.items)
                && (pageHasMore p a.offset || decide (p.items.length ≥ p.limit))) with
            | false => rfl
            | true => exact absurd hcase hcond
          rw [hb, if_neg Bool.false_ne_true, h2, if_neg hcond, itemsOfPages_cons]
          simp [itemsOfPages]

theorem pagesTaken_take (stop : Option Nat) (remote : List Page) (o pc : Nat) :
    ∃ k, pagesTaken stop remote o pc = remote.take k := by
  induction remote generalizing o pc with
  | nil => exact ⟨0, rfl⟩
  | cons p rest ih =>
    simp only [pagesTaken]
    by_cases he : p.items.isEmpty = true
    · rw [if_pos he]
      exact ⟨0, rfl⟩
    · rw [if_neg he]
      by_cases hc : pc + 1 > maxPages
      · rw [if_pos hc]
        exact ⟨0, rfl⟩
      · rw [if_neg hc]
        by_cases hcond : (!stopTimeTriggered stop (pageMinUpdate p.items)
            && (pageHasMore p o || decide (p.items.length ≥ p.limit))) = true
        · rw [if_pos hcond]
          obtain ⟨k, hk⟩ := ih (o + p.items.length) (pc + 1)
          exact ⟨k + 1, by rw [hk]; rfl⟩
        · rw [if_neg hcond]
          exact ⟨1, rfl⟩

theorem pagesTaken_mono (stop1 stop2 : Option Nat) (remote : List Page) (o pc : Nat)
    (hstop : ∀ pmin, stopTimeTriggered stop1 pmin = true
      → stopTimeTriggered stop2 pmin = true) :
    ∃ rest2, pagesTaken stop2 remote o pc ++ rest2 = pagesTaken stop1 remote o pc := by
  induction remote generalizing o pc with
  | nil => exact ⟨[], rfl⟩
  | cons p rest ih =>
    simp only [pagesTaken]
    by_cases he : p.items.isEmpty = true
    · rw [if_pos he, if_pos he]
      exact ⟨[], rfl⟩
    · rw [if_neg he, if_neg he]
      by_cases hc : pc + 1 > maxPages
      · rw [if_pos hc, if_pos hc]
        exact ⟨[], rfl⟩
      · rw [if_neg hc, if_neg hc]
        by_cases hcond2 : (!stopTimeTriggered stop2 (pageMinUpdate p.items)
            && (pageHasMore p o || decide (p.items.length ≥ p.limit))) = true
        · have hcond1 : (!stopTimeTriggered stop1 (pageMinUpdate p.items)
              && (pageHasMore p o || decide (p.items.length ≥ p.limit))) = true := by
            obtain ⟨hn2, hcont⟩ := Bool.and_eq_true_iff.mp hcond2
            refine Bool.and_eq_true_iff.mpr ⟨?_, hcont⟩
            cases hs1 : stopTimeTriggered stop1 (pageMinUpdate p.items) with
            | false => rfl
            | true =>
              rw [hstop _ hs1] at hn2
              exact absurd hn2 (by decide)
          rw [if_pos hcond1, if_pos hcond2]
          obtain ⟨rest2, hr⟩ := ih (o + p.items.length) (pc + 1)
          exact ⟨rest2, by rw [List.cons_append, hr]⟩
        · rw [if_neg hcond2]
          by_cases hcond1 : (!stopTimeTriggered stop1 (pageMinUpdate p.items)
              && (pageHasMore p o || decide (p.items.length ≥ p.limit))) = true
          · rw [if_pos hcond1]
            exact ⟨pagesTaken stop1 rest (o + p.items.length) (pc + 1),
              by rw [List.cons_append, List.nil_append]⟩
          · rw [if_neg hcond1]
            exact ⟨[], rfl⟩

theorem classifyItem_metaMap_shape (known : AssocMap Nat) (a : ListAcc) (jt : Item) :
    ∃ me : Meta, (classifyItem known a jt).metaMap = amSet a.metaMap jt.id me
      ∧ itemTime jt ≤ me.update_time
      ∧ (∀ old, amGet? a.metaMap jt.id = some old
          → old.update_time ≤ me.update_time) := by
  simp only [classifyItem]
  by_cases hle : itemTime jt ≤ amGetD known jt.id 0
  · rw [if_pos hle]
    refine ⟨_, rfl, le_max_left _ _, ?_⟩
    intro old hold
    rw [hold]
    exact le_trans (le_max_right _ _) (le_max_right _ _)
  · rw [if_neg hle]
    refine ⟨_, rfl, le_max_left _ _, ?_⟩
    intro old hold
    rw [hold]
    exact le_trans (le_max_right _ _) (le_max_right _ _)

theorem classifyItem_metaFloor (known : AssocMap Nat) (a : ListAcc) (jt : Item)
    (h : ∀ it ∈ a.listedItems, metaFloor a.metaMap it.id (itemTime it)) :
    ∀ it ∈ (classifyItem known a jt).listedItems,
      metaFloor (classifyItem known a jt).metaMap it.id (itemTime it) := by
  obtain ⟨me, hmm, hge, hold⟩ := classifyItem_metaMap_shape known a jt
  intro it hit
  rw [classifyItem_listed] at hit
  rw [hmm]
  rcases List.mem_append.mp hit with hmem | hone
  · by_cases hid : jt.id = it.id
    · have hf := h it hmem
      obtain ⟨old, holdget⟩ := hf.1
      have h1 : itemTime it ≤ old.update_time :=
        hf.2 old (amGet?_mem _ _ _ holdget)
      have h2 : old.update_time ≤ me.update_time := by
        apply hold
        rw [hid]
        exact holdget
      rw [← hid]
      exact metaFloor_amSet_same _ _ _ _ (le_trans h1 h2)
    · exact metaFloor_amSet_other _ _ _ _ _ hid (h it hmem)
  · rw [List.mem_singleton.mp hone]
    exact metaFloor_amSet_same _ _ _ _ hge

theorem classifyFold_metaFloor (known : AssocMap Nat) (items : List Item) (a : ListAcc)
    (h : ∀ it ∈ a.listedItems, metaFloor a.metaMap it.id (itemTime it)) :
    ∀ it ∈ (items.foldl (classifyItem known) a).listedItems,
      metaFloor (items.foldl (classifyItem known) a).metaMap it.id (itemTime it) := by
  induction items generalizing a with
  | nil => exact h
  | cons b rest ih =>
    rw [List.foldl_cons]
    exact ih (classifyItem known a b) (classifyItem_metaFloor known a b h)

theorem listPageStep_metaFloor (known : AssocMap Nat) (stop : Option Nat) (p : Page)
    (a : ListAcc) (h : ∀ it ∈ a.listedItems, metaFloor a.metaMap it.id (itemTime it)) :
    ∀ it ∈ (listPageStep known stop p a).2.listedItems,
      metaFloor (listPageStep known stop p a).2.metaMap it.id (itemTime it) := by
  simp only [listPageStep]
  split
  · split
    · exact h
    · exact h
  · split
    · exact h
    · split
      · exact classifyFold_metaFloor known p.items _ h
      · exact classifyFold_metaFloor known p.items _ h

theorem listLoop_metaFloor (known : AssocMap Nat) (stop : Option Nat)
    (remote : List Page) (a : ListAcc)
    (h : ∀ it ∈ a.listedItems, metaFloor a.metaMap it.id (itemTime it)) :
    ∀ it ∈ (listLoop known stop remote a).listedItems,
      metaFloor (listLoop known stop remote a).metaMap it.id (itemTime it) := by
  induction remote generalizing a with
  | nil => exact h
  | cons p rest ih =>
    rw [listLoop]
    by_cases hb : (listPageStep known stop p a).1 = true
    · rw [if_pos hb]
      exact ih _ (listPageStep_metaFloor known stop p a h)
    · rw [if_neg hb]
      exact listPageStep_metaFloor known stop p a h

theorem classifyItem_enq_cases (known : AssocMap Nat) (a : ListAcc) (jt : Item) :
    (classifyItem known a jt).enqueued = a.enqueued
    ∨ (classifyItem known a jt).enqueued = a.enqueued ++ [jt] := by
  simp only [classifyItem]
  by_cases hle : itemTime jt ≤ amGetD known jt.id 0
  · rw [if_pos hle]
    exact Or.inl rfl
  · rw [if_neg hle]
    exact Or.inr rfl

theorem classifyItem_enq_sub (known : AssocMap Nat) (a : ListAcc) (jt : Item)
    (h : ∀ x ∈ a.enqueued, x ∈ a.listedItems) :
    ∀ x ∈ (classifyItem known a jt).enqueued, x ∈ (classifyItem known a jt).listedItems := by
  intro x hx
  rw [classifyItem_listed]
  rcases classifyItem_enq_cases known a jt with he | he
  · rw [he] at hx
    exact List.mem_append_left _ (h x hx)
  · rw [he] at hx
    rcases List.mem_append.mp hx with h1 | h1
    · exact List.mem_append_left _ (h x h1)
    · exact List.mem_append_right _ h1

theorem classifyFold_enq_sub (known : AssocMap Nat) (items : List Item) (a : ListAcc)
    (h : ∀ x ∈ a.enqueued, x ∈ a.listedItems) :
    ∀ x ∈ (items.foldl (classifyItem known) a).enqueued,
      x ∈ (items.foldl (classifyItem known) a).listedItems := by
  induction items generalizing a with
  | nil => exact h
  | cons b rest ih =>
    rw [List.foldl_cons]
    exact ih (classifyItem known a b) (classifyItem_enq_sub known a b h)

theorem listPageStep_enq_sub (known : AssocMap Nat) (stop : Option Nat) (p : Page)
    (a : ListAcc) (h : ∀ x ∈ a.enqueued, x ∈ a.listedItems) :
    ∀ x ∈ (listPageStep known stop p a).2.enqueued,
      x ∈ (listPageStep known stop p a).2.listedItems := by
  simp only [listPageStep]
  split
  · split
    · exact h
    · exact h
  · split
    · exact h
    · split
      · exact classifyFold_enq_sub known p.items _ h
      · exact classifyFold_enq_sub known p.items _ h

theorem listLoop_enq_sub (known : AssocMap Nat) (stop : Option Nat)
    (remote : List Page) (a : ListAcc)
    (h : ∀ x ∈ a.enqueued, x ∈ a.listedItems) :
    ∀ x ∈ (listLoop known stop remote a).enqueued,
      x ∈ (listLoop known stop remote a).listedItems := by
  induction remote generalizing a with
  | nil => exact h
  | cons p rest ih =>
    rw [listLoop]
    by_cases hb : (listPageStep known stop p a).1 = true
    · rw [if_pos hb]
      exact ih _ (listPageStep_enq_sub known stop p a h)
    · rw [if_neg hb]
      exact listPageStep_enq_sub known stop p a h

theorem nodup_map_id_inj {L : List Item} (hnd : (L.map Item.id).Nodup)
    {x y : Item} (hx : x ∈ L) (hy : y ∈ L) (h : x.id = y.id) : x = y := by
  induction L with
  | nil => exact absurd hx (List.not_mem_nil _)
  | cons a rest ih =>
    rw [List.map_cons, List.nodup_cons] at hnd
    rcases List.mem_cons.mp hx with rfl | hx2
    · rcases List.mem_cons.mp hy with rfl | hy2
      · rfl
      · exfalso
        apply hnd.1
        have hin : y.id ∈ rest.map Item.id := List.mem_map_of_mem _ hy2
        rw [← h] at hin
        exact hin
    · rcases List.mem_cons.mp hy with rfl | hy2
      · exfalso
        apply hnd.1
        have hin : x.id ∈ rest.map Item.id := List.mem_map_of_mem _ hx2
        rw [h] at hin
        exact hin
      · exact ih hnd.2 hx2 hy2

theorem processItem_metaFloor (fetch : String → Except String Conv) (L : List Item)
    (hnd : (L.map Item.id).Nodup) (pa : ProcAcc) (jt : Item) (hjt : jt ∈ L)
    (h : ∀ it ∈ L, metaFloor pa.metaMap it.id (itemTime it)) :
    ∀ it ∈ L, metaFloor (processItem fetch pa jt).metaMap it.id (itemTime it) := by
  intro it hit
  simp only [processItem]
  cases hfetch : fetch jt.id with
  | error e =>
    exact h it hit
  | ok conversation =>
    by_cases hid : jt.id = it.id
    · have heq : it = jt := nodup_map_id_inj hnd hit hjt hid.symm
      rw [heq]
      exact metaFloor_amSet_same _ _ _ _ (le_max_left _ _)
    · exact metaFloor_amSet_other _ _ _ _ _ hid (h it hit)

theorem processFold_metaFloor (fetch : String → Except String Conv) (L : List Item)
    (hnd : (L.map Item.id).Nodup) (q : List Item) (hq : ∀ jt ∈ q, jt ∈ L)
    (pa : ProcAcc) (h : ∀ it ∈ L, metaFloor pa.metaMap it.id (itemTime it)) :
    ∀ it ∈ L, metaFloor ((q.foldl (processItem fetch) pa)).metaMap it.id (itemTime it) := by
  induction q generalizing pa with
  | nil => exact h
  | cons jt rest ih =>
    rw [List.foldl_cons]
    exact ih (fun x hx => hq x (List.mem_cons_of_mem _ hx)) (processItem fetch pa jt)
      (processItem_metaFloor fetch L hnd pa jt (hq jt (List.mem_cons_self _ _)) h)

theorem readIndexFold_pres (entries : List IndexEntry) (st : IndexState) (id : String)
    (c : Nat)
    (hall : ∀ e ∈ entries, e.id = id → c ≤ e.update_time)
    (hst : ∃ v, amGet? st.conversations id = some v ∧ c ≤ v) :
    ∃ v, amGet? ((entries.foldl (fun st e =>
        if e.id = "" then st
        else
          { conversations := amSet st.conversations e.id e.update_time,
            meta := amSet st.meta e.id ⟨e.title, e.create_time, e.update_time⟩ })
        st).conversations) id = some v ∧ c ≤ v := by
  induction entries generalizing st with
  | nil => exact hst
  | cons e rest ih =>
    rw [List.foldl_cons]
    apply ih _ (fun e2 he2 h2 => hall e2 (List.mem_cons_of_mem _ he2) h2)
    by_cases hblank : e.id = ""
    · rw [if_pos hblank]
      exact hst
    · rw [if_neg hblank]
      by_cases hk : e.id = id
      · refine ⟨e.update_time, ?_, hall e (List.mem_cons_self _ _) hk⟩
        show amGet? (amSet st.conversations e.id e.update_time) id = some e.update_time
        rw [amGet?_amSet, if_pos hk]
      · obtain ⟨v, hv, hcv⟩ := hst
        refine ⟨v, ?_, hcv⟩
        show amGet? (amSet st.conversations e.id e.update_time) id = some v
        rw [amGet?_amSet_ne st.conversations e.id id e.update_time (fun h2 => hk h2.symm)]
        exact hv

theorem readIndexFold_found (entries : List IndexEntry) (st : IndexState) (id : String)
    (c : Nat) (hid : id ≠ "")
    (hall : ∀ e ∈ entries, e.id = id → c ≤ e.update_time)
    (hex : ∃ e ∈ entries, e.id = id) :
    ∃ v, amGet? ((entries.foldl (fun st e =>
        if e.id = "" then st
        else
          { conversations := amSet st.conversations e.id e.update_time,
            meta := amSet st.meta e.id ⟨e.title, e.create_time, e.update_time⟩ })
        st).conversations) id = some v ∧ c ≤ v := by
  induction entries generalizing st with
  | nil =>
    obtain ⟨e, he, -⟩ := hex
    exact absurd he (List.not_mem_nil _)
  | cons e rest ih =>
    rw [List.foldl_cons]
    rcases hex with ⟨e2, he2, hid2⟩
    rcases List.mem_cons.mp he2 with rfl | hmem
    · have hble : ¬(e2.id = "") := by rw [hid2]; exact hid
      rw [if_neg hble]
      apply readIndexFold_pres rest _ id c
        (fun e3 he3 h3 => hall e3 (List.mem_cons_of_mem _ he3) h3)
      refine ⟨e2.update_time, ?_, hall e2 (List.mem_cons_self _ _) hid2⟩
      show amGet? (amSet st.conversations e2.id e2.update_time) id = some e2.update_time
      rw [amGet?_amSet, if_pos hid2]
    · exact ih _ (fun e3 he3 h3 => hall e3 (List.mem_cons_of_mem _ he3) h3)
        ⟨e2, hmem, hid2⟩

theorem readIndexModel_lookup_ge (entries : List IndexEntry) (id : String) (c : Nat)
    (hid : id ≠ "")
    (hall : ∀ e ∈ entries, e.id = id → c ≤ e.update_time)
    (hex : ∃ e ∈ entries, e.id = id) :
    ∃ v, amGet? (readIndexModel entries).conversations id = some v ∧ c ≤ v :=
  readIndexFold_found entries ⟨[], []⟩ id c hid hall hex

theorem mem_indexEntriesOfMeta (m : AssocMap Meta) (e : IndexEntry)
    (he : e ∈ indexEntriesOfMeta m) :
    ∃ p ∈ m, e.id = p.1 ∧ e.update_time = p.2.update_time := by
  obtain ⟨p, hp, heq⟩ := List.mem_map.mp he
  exact ⟨p, hp, by rw [← heq], by rw [← heq]⟩

theorem indexEntriesOfMeta_row (m : AssocMap Meta) (k : String) (me : Meta)
    (h : (k, me) ∈ m) :
    ∃ e ∈ indexEntriesOfMeta m, e.id = k ∧ e.update_time = me.update_time := by
  refine ⟨⟨k, me.title, me.create_time, me.update_time⟩, ?_, rfl, rfl⟩
  exact List.mem_map_of_mem _ h

theorem contentRun_indexWritten_no_removal (options : Options) (fullInventory : Bool)
    (known : AssocMap Nat) (knownMeta : AssocMap Meta) (resumeOffset : Nat)
    (remote : List Page) (fetch : String → Except String Conv) (del : String → Bool)
    (hdid : (contentRun options fullInventory known knownMeta resumeOffset remote
        fetch del).didFullInventory = false) :
    (contentRun options fullInventory known knownMeta resumeOffset remote
        fetch del).indexWritten
      = indexEntriesOfMeta (contentRun options fullInventory known knownMeta
          resumeOffset remote fetch del).proc.metaMap := by
  have hdid2 : (listLoop known (stopTimeFor fullInventory known) remote
      (initListAcc knownMeta fullInventory resumeOffset)).didFullInventory = false := hdid
  simp only [contentRun]
  rw [hdid2]
  simp

theorem contentRun_index_floor (options : Options) (known : AssocMap Nat)
    (knownMeta : AssocMap Meta) (remote : List Page)
    (fetch : String → Except String Conv) (del : String → Bool)
    (hids : ((itemsOfPages remote).map Item.id).Nodup) :
    ∀ it ∈ (contentRun options false known knownMeta 0 remote fetch del).listing.listedItems,
      metaFloor (contentRun options false known knownMeta 0 remote
        fetch del).proc.metaMap it.id (itemTime it) := by
  intro it hit
  have hla : (contentRun options false known knownMeta 0 remote fetch del).listing
      = listLoop known (stopTimeFor false known) remote (initListAcc knownMeta false 0) := rfl
  rw [hla] at hit
  have hJ := listLoop_metaFloor known (stopTimeFor false known) remote
    (initListAcc knownMeta false 0)
    (by intro x hx; exact absurd hx (List.not_mem_nil _))
  have hlst : (listLoop known (stopTimeFor false known) remote
      (initListAcc knownMeta false 0)).listedItems
      = itemsOfPages (pagesTaken (stopTimeFor false known) remote 0 0) := by
    rw [listLoop_listed_pagesTaken known (stopTimeFor false known) remote
      (initListAcc knownMeta false 0)]
    rfl
  obtain ⟨k, hk⟩ := pagesTaken_take (stopTimeFor false known) remote 0 0
  rw [hk] at hlst
  have hnd : (((listLoop known (stopTimeFor false known) remote
      (initListAcc knownMeta false 0)).listedItems).map Item.id).Nodup := by
    rw [hlst]
    have hsplit : itemsOfPages (remote.take k) ++ itemsOfPages (remote.drop k)
        = itemsOfPages remote := by
      rw [← itemsOfPages_append, List.take_append_drop]
    have hsub : List.Sublist (itemsOfPages (remote.take k)) (itemsOfPages remote) := by
      rw [← hsplit]
      exact List.sublist_append_left _ _
    exact List.Nodup.sublist (List.Sublist.map _ hsub) hids
  have hsubq := listLoop_enq_sub known (stopTimeFor false known) remote
    (initListAcc knownMeta false 0)
    (by intro x hx; exact absurd hx (List.not_mem_nil _))
  exact processFold_metaFloor fetch
    ((listLoop known (stopTimeFor false known) remote
      (initListAcc knownMeta false 0)).listedItems) hnd
    ((listLoop known (stopTimeFor false known) remote
      (initListAcc knownMeta false 0)).enqueued) hsubq
    { metaMap := (listLoop known (stopTimeFor false known) remote
        (initListAcc knownMeta false 0)).metaMap,
      updatedCount := 0, errorCount := 0,
      processed := (listLoop known (stopTimeFor false known) remote
        (initListAcc knownMeta false 0)).processed,
      convs := [], errs := [], writes := [] } hJ it hit

theorem contentRun_index_rows (options : Options) (known : AssocMap Nat)
    (knownMeta : AssocMap Meta) (remote : List Page)
    (fetch : String → Except String Conv) (del : String → Bool)
    (hids : ((itemsOfPages remote).map Item.id).Nodup) :
    ∀ it ∈ (contentRun options false known knownMeta 0 remote fetch del).listing.listedItems,
      (∃ e ∈ (contentRun options false known knownMeta 0 remote fetch del).indexWritten,
        e.id = it.id)
      ∧ (∀ e ∈ (contentRun options false known knownMeta 0 remote fetch del).indexWritten,
          e.id = it.id → itemTime it ≤ e.update_time) := by
  intro it hit
  have hfloor := contentRun_index_floor options known knownMeta remote fetch del hids it hit
  have hdid : (contentRun options false known knownMeta 0 remote
      fetch del).didFullInventory = false := listLoop_did_false _ _ _ _ rfl
  have hiw := contentRun_indexWritten_no_removal options false known knownMeta 0 remote
    fetch del hdid
  constructor
  · obtain ⟨me, hme⟩ := hfloor.1
    obtain ⟨e, he, heid, -⟩ := indexEntriesOfMeta_row _ it.id me (amGet?_mem _ _ _ hme)
    rw [hiw]
    exact ⟨e, he, heid⟩
  · intro e he hid2
    rw [hiw] at he
    obtain ⟨p, hp, hpe, hpu⟩ := mem_indexEntriesOfMeta _ e he
    have hp1 : p.1 = it.id := by rw [← hpe, hid2]
    have hpmem : (p.1, p.2) ∈ (contentRun options false known knownMeta 0 remote
        fetch del).proc.metaMap := hp
    rw [hp1] at hpmem
    have hle := hfloor.2 p.2 hpmem
    rw [hpu]
    exact hle

theorem maxKnown_le_of_pointwise (m1 m2 : AssocMap Nat)
    (hnd : (amKeys m1).Nodup)
    (hpt : ∀ k v, amGet? m1 k = some v → v ≤ amGetD m2 k 0) :
    getMaxKnownUpdateTime m1 ≤ getMaxKnownUpdateTime m2 := by
  by_cases hz : getMaxKnownUpdateTime m1 = 0
  · rw [hz]
    exact Nat.zero_le _
  · obtain ⟨k, v, hmem, hv⟩ := maxKnown_attained m1 hz
    have hget : amGet? m1 k = some v := amGet?_of_mem_nodup m1 k v hnd hmem
    have hle : v ≤ amGetD m2 k 0 := hpt k v hget
    have hne2 : amGet? m2 k ≠ none := by
      intro hnone
      rw [amGetD, hnone] at hle
      simp at hle
      omega
    obtain ⟨w, hw⟩ := Option.ne_none_iff_exists.mp hne2
    have hwmem : (k, w) ∈ m2 := amGet?_mem m2 k w hw.symm
    have hw2 : amGetD m2 k 0 = w := by rw [amGetD, ← hw]; rfl
    rw [hv]
    calc v ≤ amGetD m2 k 0 := hle
      _ = w := hw2
      _ ≤ getMaxKnownUpdateTime m2 := maxKnown_ge_mem m2 k w hwmem

theorem contentRun_enqueued_nil_of_floor (options : Options) (known : AssocMap Nat)
    (knownMeta : AssocMap Meta) (remote : List Page)
    (fetch : String → Except String Conv) (del : String → Bool)
    (hfloor : ∀ it ∈ itemsOfPages (pagesTaken (some (getMaxKnownUpdateTime known))
        remote 0 0), itemTime it ≤ amGetD known it.id 0) :
    (contentRun options false known knownMeta 0 remote fetch del).listing.enqueued = [] := by
  have hinv := listLoop_classInv known (stopTimeFor false known) remote
    (initListAcc knownMeta false 0)
    (by
      constructor
      · intro x hx
        exact absurd hx (List.not_mem_nil _)
      · intro x hx
        exact absurd hx (List.not_mem_nil _))
  have hsubq := listLoop_enq_sub known (stopTimeFor false known) remote
    (initListAcc knownMeta false 0)
    (by intro x hx; exact absurd hx (List.not_mem_nil _))
  have hlst : (listLoop known (stopTimeFor false known) remote
      (initListAcc knownMeta false 0)).listedItems
      = itemsOfPages (pagesTaken (some (getMaxKnownUpdateTime known)) remote 0 0) := by
    rw [listLoop_listed_pagesTaken]
    rfl
  apply List.eq_nil_iff_forall_not_mem.mpr
  intro it hit
  have h1 : amGetD known it.id 0 < itemTime it := hinv.1 it hit
  have h2 : it ∈ (listLoop known (stopTimeFor false known) remote
      (initListAcc knownMeta false 0)).listedItems := hsubq it hit
  rw [hlst] at h2
  have h3 := hfloor it h2
  omega

/-- C9: running a partial pass twice in succession against an unchanged
remote listing — stable distinct nonempty remote ids, well-formed stored
state, both runs inside the 24-hour partial window — yields zero `updated`
classifications on the second run: nothing is enqueued for a body fetch,
because the first run raised every listed id's known watermark (through the
stored state or the `index.json` snapshot merged back at the start of the
second run) to at least its listed update time, and the second run's
stopping watermark dominates the first's, so its listing is a prefix of the
first run's. -/
theorem partial_pass_idempotence
    (options : Options) (s0 : BgState) (t now1 now2 : Nat) (remote : List Page)
    (fetch1 fetch2 : String → Except String Conv) (del1 del2 : String → Bool)
    (hdel : options.deleteRemoved = false)
    (hne : s0.conversations ≠ [])
    (hnk : (amKeys s0.conversations).Nodup)
    (hlf : s0.lastFullInventoryAt = some t)
    (h1 : now1 - t ≤ maxPartialAgeMs)
    (h2 : now2 - t ≤ maxPartialAgeMs)
    (hids : ((itemsOfPages remote).map Item.id).Nodup)
    (hblank : ∀ it ∈ itemsOfPages remote, it.id ≠ "") :
    (secondRunOf options s0 now1 now2 remote fetch1 fetch2 del1 del2).listing.enqueued = []
    ∧ (secondRunOf options s0 now1 now2 remote fetch1 fetch2 del1 del2).updatedCount = 0 := by
  have hmode1 : shouldForceFullInventory options s0.conversations
      s0.lastFullInventoryAt now1 = false := by
    rw [hlf]
    exact shouldForce_eq_false options s0.conversations t now1 hdel hne h1
  have hrun1 : runSyncModel options s0.conversations s0.meta s0.lastFullInventoryAt
      s0.inventoryCursor now1 none remote fetch1 del1
      = contentRun options false s0.conversations s0.meta 0 remote fetch1 del1 :=
    runSyncModel_partial_none options s0.conversations s0.meta s0.lastFullInventoryAt
      s0.inventoryCursor now1 remote fetch1 del1 hmode1
  have hdid1 : (contentRun options false s0.conversations s0.meta 0 remote
      fetch1 del1).didFullInventory = false := listLoop_did_false _ _ _ _ rfl
  have hnofc := contentRun_msgs_no_fullComplete options false s0.conversations s0.meta 0
    remote fetch1 del1 hdid1
  have hlf1 : (bgRun now1 ⟨s0, [], false⟩ (contentRun options false s0.conversations
      s0.meta 0 remote fetch1 del1).msgs).state.lastFullInventoryAt = some t := by
    rw [bgRun_lastFull now1 _ _ hnofc]
    exact hlf
  have hnebg : (bgRun now1 ⟨s0, [], false⟩ (contentRun options false s0.conversations
      s0.meta 0 remote fetch1 del1).msgs).state.conversations ≠ [] :=
    bgRun_conversations_ne_nil now1 _ _ hnofc hne
  have hmode2 : shouldForceFullInventory options
      (mergeConversations
        (bgRun now1 ⟨s0, [], false⟩ (contentRun options false s0.conversations s0.meta 0
          remote fetch1 del1).msgs).state.conversations
        (readIndexModel (contentRun options false s0.conversations s0.meta 0 remote
          fetch1 del1).indexWritten).conversations)
      (bgRun now1 ⟨s0, [], false⟩ (contentRun options false s0.conversations s0.meta 0
        remote fetch1 del1).msgs).state.lastFullInventoryAt now2 = false := by
    rw [hlf1]
    exact shouldForce_eq_false options _ t now2 hdel
      (mergeConversations_ne_nil _ _ hnebg) h2
  have hW : getMaxKnownUpdateTime s0.conversations
      ≤ getMaxKnownUpdateTime (mergeConversations
          (bgRun now1 ⟨s0, [], false⟩ (contentRun options false s0.conversations s0.meta 0
            remote fetch1 del1).msgs).state.conversations
          (readIndexModel (contentRun options false s0.conversations s0.meta 0 remote
            fetch1 del1).indexWritten).conversations) := by
    apply maxKnown_le_of_pointwise _ _ hnk
    intro k v hget
    have hv0 : amGetD s0.conversations k 0 = v := by rw [amGetD, hget]; rfl
    calc v = amGetD s0.conversations k 0 := hv0.symm
      _ ≤ amGetD (bgRun now1 ⟨s0, [], false⟩ (contentRun options false s0.conversations
          s0.meta 0 remote fetch1 del1).msgs).state.conversations k 0 :=
        bgRun_conversations_mono now1 ⟨s0, [], false⟩ (contentRun options false
          s0.conversations s0.meta 0 remote fetch1 del1).msgs k hnofc
      _ ≤ _ := mergeConversations_ge_left _ _ k
  obtain ⟨tail2, htail⟩ := pagesTaken_mono
    (some (getMaxKnownUpdateTime s0.conversations))
    (some (getMaxKnownUpdateTime (mergeConversations
      (bgRun now1 ⟨s0, [], false⟩ (contentRun options false s0.conversations s0.meta 0
        remote fetch1 del1).msgs).state.conversations
      (readIndexModel (contentRun options false s0.conversations s0.meta 0 remote
        fetch1 del1).indexWritten).conversations)))
    remote 0 0 (fun pmin h => stopTriggered_mono _ _ pmin hW h)
  have hlst1 : (contentRun options false s0.conversations s0.meta 0 remote
      fetch1 del1).listing.listedItems
      = itemsOfPages (pagesTaken (some (getMaxKnownUpdateTime s0.conversations))
          remote 0 0) := by
    show (listLoop s0.conversations (stopTimeFor false s0.conversations) remote
        (initListAcc s0.meta false 0)).listedItems = _
    rw [listLoop_listed_pagesTaken]
    rfl
  have hfloor2 : ∀ it ∈ itemsOfPages (pagesTaken
      (some (getMaxKnownUpdateTime (mergeConversations
        (bgRun now1 ⟨s0, [], false⟩ (contentRun options false s0.conversations s0.meta 0
          remote fetch1 del1).msgs).state.conversations
        (readIndexModel (contentRun options false s0.conversations s0.meta 0 remote
          fetch1 del1).indexWritten).conversations))) remote 0 0),
      itemTime it ≤ amGetD (mergeConversations
        (bgRun now1 ⟨s0, [], false⟩ (contentRun options false s0.conversations s0.meta 0
          remote fetch1 del1).msgs).state.conversations
        (readIndexModel (contentRun options false s0.conversations s0.meta 0 remote
          fetch1 del1).indexWritten).conversations) it.id 0 := by
    intro it hit
    have hit1 : it ∈ itemsOfPages (pagesTaken
        (some (getMaxKnownUpdateTime s0.conversations)) remote 0 0) := by
      obtain ⟨p, hp, hip⟩ := mem_itemsOfPages _ it hit
      apply itemsOfPages_mem _ p _ it hip
      rw [← htail]
      exact List.mem_append_left _ hp
    have hitL : it ∈ (contentRun options false s0.conversations s0.meta 0 remote
        fetch1 del1).listing.listedItems := by
      rw [hlst1]
      exact hit1
    have hblank2 : it.id ≠ "" := by
      apply hblank
      obtain ⟨k, hk⟩ := pagesTaken_take (some (getMaxKnownUpdateTime s0.conversations))
        remote 0 0
      rw [hk] at hit1
      obtain ⟨p, hp, hip⟩ := mem_itemsOfPages _ it hit1
      exact itemsOfPages_mem remote p ((List.take_sublist _ _).subset hp) it hip
    obtain ⟨hex, hall⟩ := contentRun_index_rows options s0.conversations s0.meta remote
      fetch1 del1 hids it hitL
    obtain ⟨v, hv, hcv⟩ := readIndexModel_lookup_ge
      (contentRun options false s0.conversations s0.meta 0 remote
        fetch1 del1).indexWritten
      it.id (itemTime it) hblank2 hall hex
    exact le_trans hcv (mergeConversations_ge_lookup _ _ it.id v hv)
  have henq : (contentRun options false
      (mergeConversations
        (bgRun now1 ⟨s0, [], false⟩ (contentRun options false s0.conversations s0.meta 0
          remote fetch1 del1).msgs).state.conversations
        (readIndexModel (contentRun options false s0.conversations s0.meta 0 remote
          fetch1 del1).indexWritten).conversations)
      (mergeMeta
        (bgRun now1 ⟨s0, [], false⟩ (contentRun options false s0.conversations s0.meta 0
          remote fetch1 del1).msgs).state.meta
        (readIndexModel (contentRun options false s0.conversations s0.meta 0 remote
          fetch1 del1).indexWritten).meta)
      0 remote fetch2 del2).listing.enqueued = [] :=
    contentRun_enqueued_nil_of_floor options _ _ remote fetch2 del2 hfloor2
  simp only [secondRunOf]
  rw [hrun1, runSyncModel_partial_some options _ _ _ _ now2 _ remote fetch2 del2 hmode2]
  exact ⟨henq, contentRun_updated_of_enq_nil options false _ _ 0 remote fetch2 del2 henq⟩

/-- Witness for C9 at concrete data: one remote page listing X at time 10,
stored watermark 5, both fetches succeed; the second run enqueues nothing
and performs zero updates. -/
theorem partial_pass_idempotence_witness :
    scenOptionsNoDelete.deleteRemoved = false
    ∧ ((secondRunOf scenOptionsNoDelete errScenState 1000 2000 errScenRemote
        (fun _ => Except.ok ⟨"x", 10, 1⟩) (fun _ => Except.ok ⟨"x", 10, 1⟩)
        (fun _ => true) (fun _ => true)).listing.enqueued = []
      ∧ (secondRunOf scenOptionsNoDelete errScenState 1000 2000 errScenRemote
        (fun _ => Except.ok ⟨"x", 10, 1⟩) (fun _ => Except.ok ⟨"x", 10, 1⟩)
        (fun _ => true) (fun _ => true)).updatedCount = 0) :=
  ⟨by decide,
   partial_pass_idempotence scenOptionsNoDelete errScenState 0 1000 2000 errScenRemote
     (fun _ => Except.ok ⟨"x", 10, 1⟩) (fun _ => Except.ok ⟨"x", 10, 1⟩)
     (fun _ => true) (fun _ => true)
     (by decide) (by decide) (by decide) (by decide) (by decide) (by decide)
     (by decide) (by decide)⟩
